import Mathlib

/-!
Verification development for the `leben-regex` regular-expression engine.

The Rust sources are shallowly embedded:
* `src/utf8.rs`   → `trunc_u8`, `encode_utf8`, `decode_utf8`
* `src/math.rs`   → `BitMatrix`, `BitVector`, `NfaVector` and their operations
* `src/regex/graph.rs` → `Node`, `Graph`, the builder operations and
  `collapse_epsilons` (given an explicit fuel parameter, since the Rust loop
  is not structurally terminating; `none` models a run that needs more fuel,
  and a result that is `none` for every fuel models nontermination)
* `src/regex.rs`  → `add_alt` (the tree-to-graph translator), `Regex.test`,
  `Regex.find`
* `Graph::compile` (in `src/regex/compile.rs`, which is absent from the
  snapshot) is modelled from the spec, see `Graph.compile` below.

Machine integers: Rust `u8`/`u32`/`usize` values are modelled as `Nat`; the
single truncating cast in the sources (`trunc_u8`) is modelled by `% 256`.
Codepoints (`UnicodeCodepoint`) are modelled as their underlying `Nat` value.
-/

/-! ## UTF-8 (src/utf8.rs) -/

/-- Error type of `decode_utf8` (`Utf8DecodeError` in src/utf8.rs; the nested
`UnicodeError::SurrogateCodepoint` variant is flattened into this type). -/
inductive Utf8DecodeError where
  | unexpectedEndOfStream
  | overlongEncoding (c : Nat)
  | surrogateCodepoint (c : Nat)
  | invalidByte1 (b0 : Nat)
  | invalidByte2 (b0 b1 : Nat)
  | invalidByte3 (b0 b1 b2 : Nat)
  | invalidByte4 (b0 b1 b2 b3 : Nat)
  deriving DecidableEq, Repr

/-- Truncating cast `u32 → u8` (`trunc_u8` in src/utf8.rs). -/
def trunc_u8 (x : Nat) : Nat := x % 256

/-- Encoder (`encode_utf8` in src/utf8.rs), one codepoint at a time. -/
def encode_one (c : Nat) : List Nat :=
  if c < 2 ^ 7 then
    [trunc_u8 c]
  else if c < 2 ^ 11 then
    [0xc0 ||| trunc_u8 (c >>> 6), 0x80 ||| trunc_u8 (c &&& 0x3f)]
  else if c < 2 ^ 16 then
    [0xe0 ||| trunc_u8 (c >>> 12), 0x80 ||| trunc_u8 ((c >>> 6) &&& 0x3f),
     0x80 ||| trunc_u8 (c &&& 0x3f)]
  else
    [0xf0 ||| trunc_u8 (c >>> 18), 0x80 ||| trunc_u8 ((c >>> 12) &&& 0x3f),
     0x80 ||| trunc_u8 ((c >>> 6) &&& 0x3f), 0x80 ||| trunc_u8 (c &&& 0x3f)]

/-- Encoder (`encode_utf8` in src/utf8.rs). -/
def encode_utf8 : List Nat → List Nat
  | [] => []
  | c :: rest => encode_one c ++ encode_utf8 rest

/-- Decoder (`decode_utf8` in src/utf8.rs).  The Rust loop consumes bytes
from an iterator and pushes decoded codepoints; here each loop iteration is
one recursive call on the remaining byte list. -/
def decode_utf8 : List Nat → Except Utf8DecodeError (List Nat)
  | [] => .ok []
  | b0 :: r0 =>
    if b0 >>> 7 = 0 then
      (decode_utf8 r0).map (b0 :: ·)
    else
      match r0 with
      | [] => .error .unexpectedEndOfStream
      | b1 :: r1 =>
        if b1 >>> 6 ≠ 2 then
          .error (.invalidByte2 (trunc_u8 b0) (trunc_u8 b1))
        else if b0 >>> 5 = 6 then
          let c := ((b0 &&& 0x1f) <<< 6) ||| (b1 &&& 0x3f)
          if c < 0x80 then .error (.overlongEncoding c)
          else (decode_utf8 r1).map (c :: ·)
        else
          match r1 with
          | [] => .error .unexpectedEndOfStream
          | b2 :: r2 =>
            if b2 >>> 6 ≠ 2 then
              .error (.invalidByte3 (trunc_u8 b0) (trunc_u8 b1) (trunc_u8 b2))
            else if b0 >>> 4 = 14 then
              let c := ((b0 &&& 0x0f) <<< 12) |||
                       ((b1 &&& 0x3f) <<< 6) ||| (b2 &&& 0x3f)
              if c < 0x800 then .error (.overlongEncoding c)
              else if 0xd800 ≤ c ∧ c < 0xe000 then .error (.surrogateCodepoint c)
              else (decode_utf8 r2).map (c :: ·)
            else
              match r2 with
              | [] => .error .unexpectedEndOfStream
              | b3 :: r3 =>
                if b3 >>> 6 ≠ 2 then
                  .error (.invalidByte4 (trunc_u8 b0) (trunc_u8 b1)
                    (trunc_u8 b2) (trunc_u8 b3))
                else if b0 >>> 3 = 30 then
                  let c := ((b0 &&& 0x07) <<< 18) |||
                           ((b1 &&& 0x3f) <<< 12) |||
                           ((b2 &&& 0x3f) <<< 6) ||| (b3 &&& 0x3f)
                  if c < 0x10000 then .error (.overlongEncoding c)
                  else (decode_utf8 r3).map (c :: ·)
                else
                  .error (.invalidByte1 (trunc_u8 b0))

/-! ## Linear-algebra primitives (src/math.rs) -/

/-- Dense boolean matrix (`BitMatrix` in src/math.rs), row-major:
entry (i, j) is stored at index `size_j * i + j`. -/
structure BitMatrix where
  size_i : Nat
  size_j : Nat
  el : List Bool
  deriving DecidableEq, Repr

/-- Dense boolean vector (`BitVector` in src/math.rs). -/
structure BitVector where
  size : Nat
  el : List Bool
  deriving DecidableEq, Repr

/-- Nullable-integer vector (`NfaVector` in src/math.rs). -/
structure NfaVector where
  size : Nat
  el : List (Option Nat)
  deriving DecidableEq, Repr

/-- Combine rule of the nullable-minimum semiring (`min_some` in src/math.rs). -/
def min_some : Option Nat → Option Nat → Option Nat
  | none, none => none
  | some x, none => some x
  | none, some x => some x
  | some x, some y => some (min x y)

/-- Checked element access (`BitMatrix::get`): the Rust function asserts
`i < size_i` and `j < size_j`; a failed assertion is modelled as `none`. -/
def BitMatrix.get (a : BitMatrix) (i j : Nat) : Option Bool :=
  if i < a.size_i ∧ j < a.size_j then some (a.el.getD (a.size_j * i + j) false)
  else none

/-- Checked element access (`BitVector::get`). -/
def BitVector.get (a : BitVector) (i : Nat) : Option Bool :=
  if i < a.size then some (a.el.getD i false) else none

/-- Inner loop of `BitVector::mult` for one output row `i`: scan
`k = n - left, …, n - 1`, short-circuiting to `true` as soon as
`a.get(i, k) && b.get(k)` holds; a failed index assertion gives `none`. -/
def multRowGo (a : BitMatrix) (b : BitVector) (i n : Nat) : Nat → Nat → Option Bool
  | 0, _ => some false
  | left + 1, k =>
    match a.get i k with
    | none => none
    | some true =>
      match b.get k with
      | none => none
      | some true => some true
      | some false => multRowGo a b i n left (k + 1)
    | some false => multRowGo a b i n left (k + 1)

/-- Matrix–vector product (`BitVector::mult` in src/math.rs).  The Rust
function asserts `a.size_i == b.size` and `a.size_j == c.size` (`c` is the
caller-provided output), sets `n = a.size_i`, and computes each output cell
`i` (for `i` below the output size) by the short-circuiting inner loop over
`k in 0..n`.  A failed assertion — the shape asserts or the index asserts
inside `BitMatrix::get` / `BitVector::get` — is modelled as `none`; on
success the result is the output vector's element list. -/
def BitVector.mult (a : BitMatrix) (b : BitVector) (csize : Nat) :
    Option (List Bool) :=
  if a.size_i = b.size ∧ a.size_j = csize then
    let n := a.size_i
    (List.range csize).foldr
      (fun i acc => acc.bind fun rest => (multRowGo a b i n n 0).map (· :: rest))
      (some [])
  else none

/-! ## The pattern syntax tree (src/regex/parse.rs)

The parser itself comes from the external `parsable` crate and is out of
scope; the engine consumes the parsed tree.  `Character::to_codepoint`
converts each literal to a validated codepoint, so atoms are embedded with
their codepoint value already computed. -/

mutual
/-- An atom (`Atom` in src/regex/parse.rs): a literal codepoint or a
parenthesized group of alternatives. -/
inductive RAtom where
  | ch (c : Nat)
  | group (a : RAlt)
/-- One part of a concatenation (`KleeneExpr`): an atom with an optional
Kleene star. -/
inductive RPart where
  | mk (atom : RAtom) (star : Bool)
/-- A concatenation (`ConcatExpr`): a possibly empty sequence of parts. -/
inductive RCat where
  | nil
  | cons (p : RPart) (rest : RCat)
/-- An alternation (`AltExpr`): a nonempty list of concatenations. -/
inductive RAlt where
  | last (c : RCat)
  | cons (c : RCat) (rest : RAlt)
end

/-- Kleene star of a language: zero or more adjacent blocks, each in `L`. -/
inductive StarL (L : List Nat → Prop) : List Nat → Prop where
  | nil : StarL L []
  | cons (u v : List Nat) : L u → StarL L v → StarL L (u ++ v)

mutual
/-- Reference language of an atom. -/
def RAtom.lang : RAtom → List Nat → Prop
  | .ch c => fun w => w = [c]
  | .group a => a.lang
/-- Reference language of a part: the atom's language, starred if marked. -/
def RPart.lang : RPart → List Nat → Prop
  | .mk a false => a.lang
  | .mk a true => StarL a.lang
/-- Reference language of a concatenation. -/
def RCat.lang : RCat → List Nat → Prop
  | .nil => fun w => w = []
  | .cons p rest => fun w => ∃ u v, p.lang u ∧ rest.lang v ∧ w = u ++ v
/-- Reference language of an alternation. -/
def RAlt.lang : RAlt → List Nat → Prop
  | .last c => c.lang
  | .cons c rest => fun w => c.lang w ∨ rest.lang w
end

/-! ## The NFA graph (src/regex/graph.rs)

`NodeRef` in the Rust source is an index tagged with the owning graph's
identity; the tag only guards against cross-graph misuse (a panic), so nodes
are embedded as plain indices into the graph's node list. -/

/-- One NFA node (`Node` in src/regex/graph.rs): a final flag, labeled edges
as (target, token) pairs in insertion order, and epsilon-edge targets in
insertion order. -/
structure Node where
  is_final : Bool
  edges : List (Nat × Nat)
  epsilon_edges : List Nat
  deriving DecidableEq, Repr

/-- The all-default node (`Node::default()`). -/
def Node.default0 : Node := ⟨false, [], []⟩

/-- The NFA under construction (`Graph` in src/regex/graph.rs). -/
structure Graph where
  nodes : List Node
  deriving DecidableEq, Repr

/-- Fresh graph with the single initial node 0 (`Graph::new`). -/
def Graph.new0 : Graph := ⟨[Node.default0]⟩

/-- Replace node `x` by `f` applied to it (out-of-range `x` would panic in
Rust; `List.set` is then a no-op, which is unreachable for builder-made
handles). -/
def Graph.update (g : Graph) (x : Nat) (f : Node → Node) : Graph :=
  ⟨g.nodes.set x (f (g.nodes.getD x Node.default0))⟩

/-- Append a blank node and return its index (`Graph::add_node`). -/
def Graph.add_node (g : Graph) : Graph × Nat :=
  (⟨g.nodes ++ [Node.default0]⟩, g.nodes.length)

/-- Append the labeled edge x → y (`Graph::connect`). -/
def Graph.connect (g : Graph) (x y token : Nat) : Graph :=
  g.update x fun n => { n with edges := n.edges ++ [(y, token)] }

/-- Append the epsilon edge x → y (`Graph::connect_epsilon`). -/
def Graph.connect_epsilon (g : Graph) (x y : Nat) : Graph :=
  g.update x fun n => { n with epsilon_edges := n.epsilon_edges ++ [y] }

/-- Mark node x final (`Graph::set_final`). -/
def Graph.set_final (g : Graph) (x : Nat) : Graph :=
  g.update x fun n => { n with is_final := true }

/-- Pop from the back of a list, as Rust `Vec::pop`. -/
def popBack : List Nat → Option (Nat × List Nat)
  | [] => none
  | l => (l.getLast?).map fun b => (b, l.dropLast)

/-- Inner loop of `Graph::collapse_epsilons` for node `a`: repeatedly pop an
epsilon target `b` off node `a`'s list; discard self-loops; otherwise inherit
`b`'s final flag, labeled edges, and (remaining) epsilon targets.  The Rust
`while let` loop has no structural bound, so a fuel parameter counts the
remaining permitted iterations; `none` means the fuel ran out. -/
def collapseNode (fuel : Nat) (ns : List Node) (a : Nat) : Option (List Node) :=
  match fuel with
  | 0 => none
  | fuel + 1 =>
    let na := ns.getD a Node.default0
    match popBack na.epsilon_edges with
    | none => some ns
    | some (b, rest) =>
      if b = a then
        collapseNode fuel (ns.set a { na with epsilon_edges := rest }) a
      else
        let nb := ns.getD b Node.default0
        collapseNode fuel
          (ns.set a
            { is_final := na.is_final || nb.is_final,
              edges := na.edges ++ nb.edges,
              epsilon_edges := rest ++ nb.epsilon_edges }) a

/-- Outer loop of `Graph::collapse_epsilons`: process nodes `a, a+1, …` for
`cnt` more indices, threading the node list. -/
def collapseGo (fuel : Nat) : Nat → List Node → Nat → Option (List Node)
  | 0, ns, _ => some ns
  | cnt + 1, ns, a =>
    match collapseNode fuel ns a with
    | none => none
    | some ns2 => collapseGo fuel cnt ns2 (a + 1)

/-- Epsilon elimination (`Graph::collapse_epsilons` in src/regex/graph.rs),
with fuel for the unboundedly looping inner pass. -/
def Graph.collapse_epsilons (fuel : Nat) (g : Graph) : Option Graph :=
  (collapseGo fuel g.nodes.length g.nodes 0).map Graph.mk

/-! ## The translator (`add_alt` in src/regex.rs) -/

mutual
/-- Translate one atom between the nodes `prev` and `nxt` (the body of the
`match p.atom` in `add_alt`). -/
def addAtom (g : Graph) (prev nxt : Nat) : RAtom → Graph
  | .ch c => g.connect prev nxt c
  | .group a => addAlts g prev nxt a
/-- Translate the remaining parts of one alternative, with `prev` the current
node (the `for p in alt.parts.nodes` loop of `add_alt`, followed by the final
conditional epsilon edge to `endN`). -/
def addParts (g : Graph) (prev endN : Nat) : RCat → Graph
  | .nil => if prev = endN then g else g.connect_epsilon prev endN
  | .cons (.mk atom star) rest =>
    if star then
      addParts (addAtom g prev prev atom) prev endN rest
    else
      let gn := g.add_node
      addParts (addAtom gn.1 prev gn.2 atom) gn.2 endN rest
/-- Translate every alternative of an alternation from `start` to `endN`
(the `for a in alt.alts.nodes { add_alt(graph, prev, next, a) }` loops in
src/regex.rs). -/
def addAlts (g : Graph) (start endN : Nat) : RAlt → Graph
  | .last c => addParts g start endN c
  | .cons c rest => addAlts (addParts g start endN c) start endN rest
end

/-- The translator entry point (`add_alt(graph, start, end, alt)` in
src/regex.rs): walk the alternative's parts starting at `start`. -/
def add_alt (g : Graph) (start endN : Nat) (alt : RCat) : Graph :=
  addParts g start endN alt

/-- Graph construction part of `Regex::new`: fresh graph, add the final
node, mark it final, then translate every top-level alternative from node 0
to the final node. -/
def buildGraph (a : RAlt) : Graph :=
  let g := Graph.new0
  let gn := g.add_node
  let g2 := gn.1.set_final gn.2
  addAlts g2 0 gn.2 a

/-! ## The compiled artifact and `Graph::compile`

`src/regex.rs` declares `mod compile` and calls `graph.compile()`, but
`src/regex/compile.rs` is not part of the snapshot, so `Graph.compile` is
modelled from the spec (§4.5).  Transition matrices are `n × n` boolean
matrices stored as a list of rows; row = destination state, column = origin
state. -/

/-- Compiled artifact (`Regex` in src/regex.rs): the per-symbol transition
matrices (an association list standing in for the `HashMap`), the
final-state vector, and the node count `n`. -/
structure RegexC where
  n : Nat
  token_matrices : List (Nat × List (List Bool))
  final_nodes : List Bool
  deriving DecidableEq, Repr

/-- Symbols that label at least one edge in the graph, in first-occurrence
order. -/
def Graph.symbols (g : Graph) : List Nat :=
  (g.nodes.flatMap fun n => n.edges.map (·.2)).dedup

/-- Modelled from the spec: the transition matrix of one symbol, built by
`Graph::compile` (src/regex/compile.rs, absent from the snapshot).  Spec
§4.5: «the matrix's entry at (target, source) is true iff the graph contains
an edge labeled that symbol from `source` to `target`». -/
def Graph.matrixFor (g : Graph) (c : Nat) : List (List Bool) :=
  (List.range g.nodes.length).map fun t =>
    (List.range g.nodes.length).map fun s =>
      (g.nodes.getD s Node.default0).edges.contains (t, c)

/-- Modelled from the spec: `Graph::compile` (src/regex/compile.rs, absent
from the snapshot).  Spec §4.5: «Output: a mapping from every codepoint that
labels at least one edge to an N×N boolean matrix, and an N-length
final-state vector. […] The final vector's entry i equals the graph's final
flag at node i.» -/
def Graph.compile (g : Graph) : RegexC :=
  { n := g.nodes.length
    token_matrices := g.symbols.map fun c => (c, g.matrixFor c)
    final_nodes := g.nodes.map (·.is_final) }

/-- Whole compilation pipeline of `Regex::new` after parsing: build the
graph from the tree, collapse epsilon edges (with the given fuel), compile. -/
def compileAst (fuel : Nat) (a : RAlt) : Option RegexC :=
  ((buildGraph a).collapse_epsilons fuel).map Graph.compile

/-! ## The matcher (`Regex::test` and `Regex::find` in src/regex.rs)

The compiled artifact only ever holds `n × n` matrices and size-`n` vectors
(`Graph::compile` above), so every shape assertion inside the `BitVector` /
`NfaVector` operations holds on the matcher's hot path; the operations are
therefore embedded by their total square-size semantics, on plain element
lists. -/

/-- Entry (i, k) of a matrix stored as a list of rows. -/
def matGet (m : List (List Bool)) (i k : Nat) : Bool :=
  (m.getD i []).getD k false

/-- Square-size semantics of `BitVector::mult` (src/math.rs): output cell
`i` is the short-circuit OR over `k in 0..n` of `m[i][k] && v[k]`. -/
def bvApply (n : Nat) (m : List (List Bool)) (v : List Bool) : List Bool :=
  (List.range n).map fun i =>
    (List.range n).any fun k => matGet m i k && v.getD k false

/-- Semantics of `BitVector::dot` (src/math.rs): true iff some index is true
in both operands. -/
def bvDot (a b : List Bool) : Bool :=
  (a.zip b).any fun p => p.1 && p.2

/-- Square-size semantics of `NfaVector::mult` (src/math.rs): output cell
`i` folds `min_some` over the values `v[k]` at columns `k` where `m[i][k]`
is set. -/
def nfaApply (n : Nat) (m : List (List Bool)) (v : List (Option Nat)) :
    List (Option Nat) :=
  (List.range n).map fun i =>
    (List.range n).foldl
      (fun value k => if matGet m i k then min_some value (v.getD k none) else value)
      none

/-- Semantics of `NfaVector::dot` (src/math.rs): keep the values at indices
where the bit vector is set and fold them with `min_some`. -/
def nfaDot (a : List (Option Nat)) (b : List Bool) : Option Nat :=
  ((a.zip b).map fun p => if p.2 then p.1 else none).foldl min_some none

/-- Look up a token's transition matrix (`self.token_matrices.get(token)`). -/
def RegexC.lookupTok (r : RegexC) (c : Nat) : Option (List (List Bool)) :=
  r.token_matrices.lookup c

/-- Loop of `Regex::test`: consume tokens, replacing the accumulator by
`matrix × accumulator`; fail on a token with no matrix; at the end take the
existential dot product with the final vector. -/
def RegexC.testGo (r : RegexC) (acc : List Bool) : List Nat → Bool
  | [] => bvDot acc r.final_nodes
  | t :: rest =>
    match r.lookupTok t with
    | none => false
    | some m => r.testGo (bvApply r.n m acc) rest

/-- Whole-string match (`Regex::test` in src/regex.rs). -/
def RegexC.test (r : RegexC) (s : List Nat) : Bool :=
  r.testGo ((List.replicate r.n false).set 0 true) s

/-- Loop of `Regex::find`: at input index `i`, overwrite state 0 with the
fresh candidate start `i`; a token without a matrix resets all candidates;
otherwise step the nullable-minimum vector and return on the first final
state reached, with start `s` and length `i - s + 1`. -/
def RegexC.findGo (r : RegexC) (acc : List (Option Nat)) (i : Nat) :
    List Nat → Option (Nat × Nat)
  | [] => none
  | t :: rest =>
    let acc1 := acc.set 0 (some i)
    match r.lookupTok t with
    | none => r.findGo (List.replicate r.n none) (i + 1) rest
    | some m =>
      let acc2 := nfaApply r.n m acc1
      match nfaDot acc2 r.final_nodes with
      | some s => some (s, i - s + 1)
      | none => r.findGo acc2 (i + 1) rest

/-- Leftmost-shortest find (`Regex::find` in src/regex.rs), including the
zero-length pre-scan check on the initial state. -/
def RegexC.find (r : RegexC) (s : List Nat) : Option (Nat × Nat) :=
  let acc0 := (List.replicate r.n none).set 0 (some 0)
  if (nfaDot acc0 r.final_nodes).isSome then some (0, 0)
  else r.findGo acc0 0 s

/-! ## Path semantics, well-formedness, and concrete instances

These definitions support the verification; they are not part of the Rust
sources.  `GPath` are paths in the epsilon-NFA, `LPath` paths that use
labeled edges only (the collapsed graph), `EpsCl` is epsilon reachability. -/

/-- Membership of an epsilon edge a → b in a node list. -/
def epsMem (ns : List Node) (a b : Nat) : Prop :=
  b ∈ (ns.getD a Node.default0).epsilon_edges

/-- Membership of a labeled edge a → t with token c in a node list. -/
def edgeMem (ns : List Node) (a t c : Nat) : Prop :=
  (t, c) ∈ (ns.getD a Node.default0).edges

/-- Node `a` is marked final. -/
def finalAt (ns : List Node) (a : Nat) : Prop :=
  (ns.getD a Node.default0).is_final = true

/-- Epsilon reachability: the reflexive-transitive closure of epsilon
edges. -/
def EpsCl (ns : List Node) : Nat → Nat → Prop :=
  Relation.ReflTransGen (epsMem ns)

/-- Paths of the epsilon-NFA: a word is read along labeled edges, with
epsilon edges usable at any point. -/
inductive GPath (ns : List Node) : Nat → List Nat → Nat → Prop where
  | refl (q : Nat) : GPath ns q [] q
  | eps {q b r : Nat} {w : List Nat} :
      epsMem ns q b → GPath ns b w r → GPath ns q w r
  | step {q t r : Nat} {c : Nat} {w : List Nat} :
      edgeMem ns q t c → GPath ns t w r → GPath ns q (c :: w) r

/-- Paths that use labeled edges only (adequate for the collapsed,
epsilon-free graph). -/
inductive LPath (ns : List Node) : Nat → List Nat → Nat → Prop where
  | refl (q : Nat) : LPath ns q [] q
  | step {q t r : Nat} {c : Nat} {w : List Nat} :
      edgeMem ns q t c → LPath ns t w r → LPath ns q (c :: w) r

/-- Well-formed node list: every edge target and epsilon target is a valid
node index (guaranteed by the builder interface, whose handles always come
from `add_node` on the same graph). -/
def WfNodes (ns : List Node) : Prop :=
  ∀ nd ∈ ns, (∀ e ∈ nd.edges, e.1 < ns.length) ∧
    (∀ b ∈ nd.epsilon_edges, b < ns.length)

/-- Graph `g2` extends `g1`: every edge, epsilon edge and final mark of `g1`
is present in `g2` (builder operations only ever add). -/
def GExt (g1 g2 : Graph) : Prop :=
  (∀ a t c, edgeMem g1.nodes a t c → edgeMem g2.nodes a t c) ∧
  (∀ a b, epsMem g1.nodes a b → epsMem g2.nodes a b) ∧
  (∀ a, finalAt g1.nodes a → finalAt g2.nodes a)

/-- One non-returning step of the `Regex::find` loop on the accumulator:
inject the candidate start `i` at state 0, then either reset (token without
matrix) or take the nullable-minimum product. -/
def stepAcc (r : RegexC) (acc : List (Option Nat)) (i t : Nat) :
    List (Option Nat) :=
  match r.lookupTok t with
  | none => List.replicate r.n none
  | some m => nfaApply r.n m (acc.set 0 (some i))

/-- The `Regex::find` loop run from accumulator `acc` at input index `i`
reaches a final state for the first `j + 1` tokens exactly when `firesAt r
acc i tokens j` (token `j` has a matrix and the dot product with the final
vector is `some` after stepping on it). -/
def firesAt (r : RegexC) : List (Option Nat) → Nat → List Nat → Nat → Prop
  | _, _, [], _ => False
  | acc, i, t :: _, 0 =>
    match r.lookupTok t with
    | none => False
    | some m => (nfaDot (nfaApply r.n m (acc.set 0 (some i))) r.final_nodes).isSome
  | acc, i, t :: rest, j + 1 => firesAt r (stepAcc r acc i t) (i + 1) rest j

/-! ### Concrete syntax trees used as failing inputs and witnesses -/

/-- Concatenation from a list of parts. -/
def catOf : List RPart → RCat
  | [] => .nil
  | p :: r => .cons p (catOf r)

/-- The pattern `a` (codepoint 97). -/
def patA : RAlt := .last (catOf [.mk (.ch 97) false])

/-- The pattern `a*` . -/
def patAstar : RAlt := .last (catOf [.mk (.ch 97) true])

/-- The pattern `a*b`. -/
def patAstarB : RAlt := .last (catOf [.mk (.ch 97) true, .mk (.ch 98) false])

/-- The pattern `(a*b)*`. -/
def patStarBug : RAlt :=
  .last (catOf [.mk (.group (.last (catOf [.mk (.ch 97) true, .mk (.ch 98) false]))) true])

/-- The pattern `(x|)((a|)|b)*` (codepoints: x = 120, a = 97, b = 98). -/
def patDiv : RAlt := .last (catOf
  [ .mk (.group (.cons (catOf [.mk (.ch 120) false]) (.last .nil))) false
  , .mk (.group (.cons
      (catOf [.mk (.group (.cons (catOf [.mk (.ch 97) false]) (.last .nil))) false])
      (.last (catOf [.mk (.ch 98) false])))) true ])

/-- Specification of a fully processed node after `collapse_epsilons`: its
epsilon list is empty, and its final flag and labeled edges are exactly the
union over its epsilon closure in the original graph. -/
def NodeSpec (orig : List Node) (p : Nat) (nd : Node) : Prop :=
  nd.epsilon_edges = [] ∧
  (nd.is_final = true ↔ ∃ b, EpsCl orig p b ∧ finalAt orig b) ∧
  (∀ t c, (t, c) ∈ nd.edges ↔ ∃ b, EpsCl orig p b ∧ edgeMem orig b t c)

/-- State of the outer `collapse_epsilons` loop while node `a` is being
processed: nodes before `a` satisfy `NodeSpec`, nodes after `a` are still
as in the original graph. -/
def CtxAt (orig ns : List Node) (a : Nat) : Prop :=
  ns.length = orig.length ∧
  (∀ p, p < a → NodeSpec orig p (ns.getD p Node.default0)) ∧
  (∀ p, a < p → ns.getD p Node.default0 = orig.getD p Node.default0)

/-- State of the outer loop between nodes: all nodes before `a` processed,
node `a` itself not yet touched. -/
def ProcAt (orig ns : List Node) (a : Nat) : Prop :=
  ns.length = orig.length ∧
  (∀ p, p < a → NodeSpec orig p (ns.getD p Node.default0)) ∧
  (∀ p, a ≤ p → ns.getD p Node.default0 = orig.getD p Node.default0)

/-- Invariant of the inner pop loop for node `a`, with `na` the current
state of node `a`.  `T` is the set of closure members already folded in
(for a popped processed node, its whole closure). -/
def NInv (orig : List Node) (a : Nat) (na : Node) : Prop :=
  ∃ T : Set Nat, a ∈ T ∧
    (∀ b ∈ T, EpsCl orig a b) ∧
    (∀ e ∈ na.epsilon_edges, EpsCl orig a e) ∧
    (na.is_final = true ↔ ∃ b ∈ T, finalAt orig b) ∧
    (∀ t c, (t, c) ∈ na.edges ↔ ∃ b ∈ T, edgeMem orig b t c) ∧
    (∀ b ∈ T, ∀ e, epsMem orig b e → e ∈ T ∨ e ∈ na.epsilon_edges) ∧
    (∀ b ∈ T, b < a → ∀ d, EpsCl orig b d → d ∈ T)

/-- Graph `g2` extends `g1` and has at least as many nodes. -/
def GLe (g1 g2 : Graph) : Prop :=
  g1.nodes.length ≤ g2.nodes.length ∧ GExt g1 g2

/-- Accumulator after running the non-returning part of the `find` loop
over a token prefix. -/
def runAcc (r : RegexC) (acc : List (Option Nat)) (i : Nat) :
    List Nat → List (Option Nat)
  | [] => acc
  | t :: rest => runAcc r (stepAcc r acc i t) (i + 1) rest

/-- Edge targets are valid node indices (guaranteed for translator-built
graphs, whose handles all come from `add_node` on the same graph). -/
def EdgeWf (g : Graph) : Prop :=
  ∀ a t c, edgeMem g.nodes a t c → t < g.nodes.length

/-- State invariant of the diverging inner loop at node 0 of the graph
built from `(x|)((a|)|b)*`: nodes 1, 2 and 4 hold their as-built lists and
node 0's epsilon list cycles through `[2] → [4,1] → [4] → [2] → …`,
so the list never empties. -/
def DivInv (ns : List Node) : Prop :=
  0 < ns.length ∧
  (ns.getD 1 Node.default0).edges = [] ∧
  (ns.getD 1 Node.default0).epsilon_edges = [] ∧
  (ns.getD 2 Node.default0).epsilon_edges = [4, 1] ∧
  (ns.getD 4 Node.default0).epsilon_edges = [2] ∧
  ((ns.getD 0 Node.default0).epsilon_edges = [2] ∨
   (ns.getD 0 Node.default0).epsilon_edges = [4, 1] ∨
   (ns.getD 0 Node.default0).epsilon_edges = [4])

/-- Every `some` value of the accumulator is at most `i`. -/
def BndV (acc : List (Option Nat)) (i : Nat) : Prop :=
  ∀ v ∈ acc, ∀ x, v = some x → x ≤ i

/-! ## Theorems -/

/-! ### UTF-8: helper lemmas for bit arithmetic -/

theorem lor_eq_add {p : Nat} (m x : Nat) (h : x < 2 ^ p) :
    (2 ^ p * m) ||| x = 2 ^ p * m + x :=
  (Nat.mul_add_lt_is_or h m).symm

theorem or128 {x : Nat} (h : x < 64) : 128 ||| x = 128 + x := by
  have := lor_eq_add (p := 7) 1 x (by omega)
  norm_num at this
  exact this

theorem or192 {x : Nat} (h : x < 32) : 192 ||| x = 192 + x := by
  have := lor_eq_add (p := 6) 3 x (by omega)
  norm_num at this
  exact this

theorem or224 {x : Nat} (h : x < 16) : 224 ||| x = 224 + x := by
  have := lor_eq_add (p := 5) 7 x (by omega)
  norm_num at this
  exact this

theorem or240 {x : Nat} (h : x < 8) : 240 ||| x = 240 + x := by
  have := lor_eq_add (p := 4) 15 x (by omega)
  norm_num at this
  exact this

theorem lor64 (m : Nat) {x : Nat} (h : x < 64) : (64 * m) ||| x = 64 * m + x := by
  have := Nat.mul_add_lt_is_or (i := 6) (b := x) (by norm_num; omega) m
  norm_num at this
  exact this.symm

theorem lor4096 (m : Nat) {x : Nat} (h : x < 4096) :
    (4096 * m) ||| x = 4096 * m + x := by
  have := Nat.mul_add_lt_is_or (i := 12) (b := x) (by norm_num; omega) m
  norm_num at this
  exact this.symm

theorem lor262144 (m : Nat) {x : Nat} (h : x < 262144) :
    (262144 * m) ||| x = 262144 * m + x := by
  have := Nat.mul_add_lt_is_or (i := 18) (b := x) (by norm_num; omega) m
  norm_num at this
  exact this.symm

theorem or_sh6 {x y : Nat} (hy : y < 64) : (x <<< 6) ||| y = 64 * x + y := by
  rw [Nat.shiftLeft_eq]
  norm_num
  rw [mul_comm x 64, lor64 x hy]

theorem or_sh12_6 {x y z : Nat} (hy : y < 64) (hz : z < 64) :
    (x <<< 12) ||| (y <<< 6) ||| z = 4096 * x + 64 * y + z := by
  rw [Nat.shiftLeft_eq, Nat.shiftLeft_eq]
  norm_num
  rw [mul_comm x 4096, mul_comm y 64]
  rw [lor4096 x (show 64 * y < 4096 by omega)]
  have e : 4096 * x + 64 * y = 64 * (64 * x + y) := by ring
  rw [e, lor64 _ hz]

theorem or_sh18 {x y z w : Nat} (hy : y < 64) (hz : z < 64) (hw : w < 64) :
    (x <<< 18) ||| (y <<< 12) ||| (z <<< 6) ||| w =
      262144 * x + 4096 * y + 64 * z + w := by
  rw [Nat.shiftLeft_eq, Nat.shiftLeft_eq, Nat.shiftLeft_eq]
  norm_num
  rw [mul_comm x 262144, mul_comm y 4096, mul_comm z 64]
  rw [lor262144 x (show 4096 * y < 262144 by omega)]
  have e1 : 262144 * x + 4096 * y = 4096 * (64 * x + y) := by ring
  rw [e1, lor4096 _ (show 64 * z < 4096 by omega)]
  have e2 : 4096 * (64 * x + y) + 64 * z = 64 * (4096 * x + 64 * y + z) := by
    ring
  rw [e2, lor64 _ hw]

theorem and31_eq (x : Nat) : x &&& 0x1f = x % 32 := Nat.and_pow_two_sub_one_eq_mod x 5

theorem and63_eq (x : Nat) : x &&& 0x3f = x % 64 := Nat.and_pow_two_sub_one_eq_mod x 6

theorem and15_eq (x : Nat) : x &&& 0x0f = x % 16 := Nat.and_pow_two_sub_one_eq_mod x 4

theorem and7_eq (x : Nat) : x &&& 0x07 = x % 8 := Nat.and_pow_two_sub_one_eq_mod x 3

theorem shr_eq (x k : Nat) : x >>> k = x / 2 ^ k := Nat.shiftRight_eq_div_pow x k

/-- Byte reconstruction for the one-byte branch of `decode_utf8`. -/
theorem encode_byte1 {b0 : Nat} (h : b0 >>> 7 = 0) : encode_one b0 = [b0] := by
  rw [shr_eq] at h
  norm_num at h
  unfold encode_one trunc_u8
  rw [if_pos (by norm_num; omega)]
  norm_num
  omega

/-- Byte reconstruction for the two-byte branch of `decode_utf8`. -/
theorem encode_byte2 {b0 b1 : Nat} (h0 : b0 >>> 5 = 6) (h1 : b1 >>> 6 = 2)
    (hc : ¬ ((b0 &&& 0x1f) <<< 6) ||| (b1 &&& 0x3f) < 0x80) :
    encode_one (((b0 &&& 0x1f) <<< 6) ||| (b1 &&& 0x3f)) = [b0, b1] := by
  rw [shr_eq] at h0 h1
  norm_num at h0 h1
  rw [and31_eq, and63_eq] at *
  rw [or_sh6 (by omega)] at *
  set c := 64 * (b0 % 32) + b1 % 64 with hcdef
  unfold encode_one trunc_u8
  rw [if_neg (by norm_num; omega), if_pos (by norm_num; omega)]
  rw [shr_eq, and63_eq]
  norm_num
  have e1 : c / 64 = b0 % 32 := by omega
  have e2 : c % 64 = b1 % 64 := by omega
  rw [e1, e2]
  have e3 : b0 % 32 % 256 = b0 % 32 := by omega
  have e4 : b1 % 64 % 256 = b1 % 64 := by omega
  rw [e3, e4, or192 (by omega), or128 (by omega)]
  omega

/-- Byte reconstruction for the three-byte branch of `decode_utf8`. -/
theorem encode_byte3 {b0 b1 b2 : Nat} (h0 : b0 >>> 4 = 14) (h1 : b1 >>> 6 = 2)
    (h2 : b2 >>> 6 = 2)
    (hc : ¬ ((b0 &&& 0x0f) <<< 12) ||| ((b1 &&& 0x3f) <<< 6) ||| (b2 &&& 0x3f)
      < 0x800) :
    encode_one (((b0 &&& 0x0f) <<< 12) ||| ((b1 &&& 0x3f) <<< 6) ||| (b2 &&& 0x3f))
      = [b0, b1, b2] := by
  rw [shr_eq] at h0 h1 h2
  norm_num at h0 h1 h2
  rw [and15_eq, and63_eq, and63_eq] at *
  rw [or_sh12_6 (by omega) (by omega)] at *
  set c := 4096 * (b0 % 16) + 64 * (b1 % 64) + b2 % 64 with hcdef
  unfold encode_one trunc_u8
  rw [if_neg (by norm_num; omega), if_neg (by norm_num; omega),
    if_pos (by norm_num; omega)]
  rw [shr_eq, shr_eq, and63_eq, and63_eq]
  norm_num
  have e1 : c / 4096 = b0 % 16 := by omega
  have e2 : c / 64 % 64 = b1 % 64 := by omega
  have e3 : c % 64 = b2 % 64 := by omega
  rw [e1, e2, e3]
  have f1 : b0 % 16 % 256 = b0 % 16 := by omega
  have f2 : b1 % 64 % 256 = b1 % 64 := by omega
  have f3 : b2 % 64 % 256 = b2 % 64 := by omega
  rw [f1, f2, f3, or224 (by omega), or128 (x := b1 % 64) (by omega),
    or128 (x := b2 % 64) (by omega)]
  refine ⟨by omega, by omega, by omega⟩

/-- Byte reconstruction for the four-byte branch of `decode_utf8`. -/
theorem encode_byte4 {b0 b1 b2 b3 : Nat} (h0 : b0 >>> 3 = 30)
    (h1 : b1 >>> 6 = 2) (h2 : b2 >>> 6 = 2) (h3 : b3 >>> 6 = 2)
    (hc : ¬ ((b0 &&& 0x07) <<< 18) ||| ((b1 &&& 0x3f) <<< 12) |||
      ((b2 &&& 0x3f) <<< 6) ||| (b3 &&& 0x3f) < 0x10000) :
    encode_one (((b0 &&& 0x07) <<< 18) ||| ((b1 &&& 0x3f) <<< 12) |||
      ((b2 &&& 0x3f) <<< 6) ||| (b3 &&& 0x3f)) = [b0, b1, b2, b3] := by
  rw [shr_eq] at h0 h1 h2 h3
  norm_num at h0 h1 h2 h3
  rw [and7_eq, and63_eq, and63_eq, and63_eq] at *
  rw [or_sh18 (by omega) (by omega) (by omega)] at *
  set c := 262144 * (b0 % 8) + 4096 * (b1 % 64) + 64 * (b2 % 64) + b3 % 64
    with hcdef
  unfold encode_one trunc_u8
  rw [if_neg (by norm_num; omega), if_neg (by norm_num; omega),
    if_neg (by norm_num; omega)]
  rw [shr_eq, shr_eq, shr_eq, and63_eq, and63_eq, and63_eq]
  norm_num
  have e1 : c / 262144 = b0 % 8 := by omega
  have e2 : c / 4096 % 64 = b1 % 64 := by omega
  have e3 : c / 64 % 64 = b2 % 64 := by omega
  have e4 : c % 64 = b3 % 64 := by omega
  rw [e1, e2, e3, e4]
  have f1 : b0 % 8 % 256 = b0 % 8 := by omega
  have f2 : b1 % 64 % 256 = b1 % 64 := by omega
  have f3 : b2 % 64 % 256 = b2 % 64 := by omega
  have f4 : b3 % 64 % 256 = b3 % 64 := by omega
  rw [f1, f2, f3, f4, or240 (by omega), or128 (x := b1 % 64) (by omega),
    or128 (x := b2 % 64) (by omega), or128 (x := b3 % 64) (by omega)]
  refine ⟨by omega, by omega, by omega, by omega⟩

/-- An `Except.map` that returned `ok` came from an `ok`. -/
theorem exmap_ok {ε α β : Type} {e : Except ε α} {f : α → β} {y : β}
    (h : e.map f = .ok y) : ∃ x, e = .ok x ∧ f x = y := by
  cases e with
  | error a => simp [Except.map] at h
  | ok a => exact ⟨a, rfl, by simpa [Except.map] using h⟩

theorem decode_encode (bs : List Nat) :
    ∀ cs, decode_utf8 bs = .ok cs → encode_utf8 cs = bs := by
  induction bs using decode_utf8.induct with
  | case1 =>
    intro cs hok
    cases hok
    rfl
  | case2 b0 r0 h ih =>
    intro cs hok
    rw [decode_utf8.eq_def] at hok
    simp only [if_pos h] at hok
    obtain ⟨cs2, hd, rfl⟩ := exmap_ok hok
    rw [encode_utf8, ih cs2 hd, encode_byte1 h]
    rfl
  | case3 b0 h =>
    intro cs hok
    rw [decode_utf8.eq_def] at hok
    simp [h] at hok
  | case4 b0 h b1 rest hne =>
    intro cs hok
    rw [decode_utf8.eq_def] at hok
    simp [h, hne] at hok
  | case5 b0 h b1 rest hcont h5 c2 hlt =>
    intro cs hok
    rw [decode_utf8.eq_def] at hok
    simp only [h, hcont, h5, if_false, ite_false, not_false_eq_true, ite_true] at hok
    have hlt2 : ((b0 &&& 31) <<< 6 ||| b1 &&& 63) < 128 := hlt
    rw [if_pos hlt2] at hok
    cases hok
  | case6 b0 h b1 rest hcont h5 c2 hge ih =>
    intro cs hok
    rw [decode_utf8.eq_def] at hok
    simp only [h, hcont, h5, if_false, ite_false, not_false_eq_true, ite_true] at hok
    have hge2 : ¬ ((b0 &&& 31) <<< 6 ||| b1 &&& 63) < 128 := hge
    rw [if_neg hge2] at hok
    obtain ⟨cs2, hd, rfl⟩ := exmap_ok hok
    rw [encode_utf8, ih cs2 hd, encode_byte2 h5 (not_not.mp hcont) hge2]
    rfl
  | case7 b0 h b1 hcont h5 =>
    intro cs hok
    rw [decode_utf8.eq_def] at hok
    simp [h, hcont, h5] at hok
  | case8 b0 h b1 hcont h5 b2 rest hne2 =>
    intro cs hok
    rw [decode_utf8.eq_def] at hok
    simp [h, hcont, h5, hne2] at hok
  | case9 b0 h b1 hcont h5 b2 rest hcont2 h4 c3 hlt =>
    intro cs hok
    rw [decode_utf8.eq_def] at hok
    simp only [h, hcont, h5, hcont2, h4, if_false, ite_false, not_false_eq_true,
      ite_true] at hok
    have hlt2 : ((b0 &&& 15) <<< 12 ||| (b1 &&& 63) <<< 6 ||| b2 &&& 63) < 2048 := hlt
    rw [if_pos hlt2] at hok
    cases hok
  | case10 b0 h b1 hcont h5 b2 rest hcont2 h4 c3 hge hsur =>
    intro cs hok
    rw [decode_utf8.eq_def] at hok
    simp only [h, hcont, h5, hcont2, h4, if_false, ite_false, not_false_eq_true,
      ite_true] at hok
    have hge2 : ¬ ((b0 &&& 15) <<< 12 ||| (b1 &&& 63) <<< 6 ||| b2 &&& 63) < 2048 := hge
    have hsur2 : 55296 ≤ ((b0 &&& 15) <<< 12 ||| (b1 &&& 63) <<< 6 ||| b2 &&& 63) ∧
        ((b0 &&& 15) <<< 12 ||| (b1 &&& 63) <<< 6 ||| b2 &&& 63) < 57344 := hsur
    rw [if_neg hge2, if_pos hsur2] at hok
    cases hok
  | case11 b0 h b1 hcont h5 b2 rest hcont2 h4 c3 hge hsur ih =>
    intro cs hok
    rw [decode_utf8.eq_def] at hok
    simp only [h, hcont, h5, hcont2, h4, if_false, ite_false, not_false_eq_true,
      ite_true] at hok
    have hge2 : ¬ ((b0 &&& 15) <<< 12 ||| (b1 &&& 63) <<< 6 ||| b2 &&& 63) < 2048 := hge
    have hsur2 : ¬ (55296 ≤ ((b0 &&& 15) <<< 12 ||| (b1 &&& 63) <<< 6 ||| b2 &&& 63) ∧
        ((b0 &&& 15) <<< 12 ||| (b1 &&& 63) <<< 6 ||| b2 &&& 63) < 57344) := hsur
    rw [if_neg hge2, if_neg hsur2] at hok
    obtain ⟨cs2, hd, rfl⟩ := exmap_ok hok
    rw [encode_utf8, ih cs2 hd,
      encode_byte3 h4 (not_not.mp hcont) (not_not.mp hcont2) hge2]
    rfl
  | case12 b0 h b1 hcont h5 b2 hcont2 h4 =>
    intro cs hok
    rw [decode_utf8.eq_def] at hok
    simp [h, hcont, h5, hcont2, h4] at hok
  | case13 b0 h b1 hcont h5 b2 hcont2 h4 b3 rest hne3 =>
    intro cs hok
    rw [decode_utf8.eq_def] at hok
    simp [h, hcont, h5, hcont2, h4, hne3] at hok
  | case14 b0 h b1 hcont h5 b2 hcont2 h4 b3 rest hcont3 h3 c4 hlt =>
    intro cs hok
    rw [decode_utf8.eq_def] at hok
    simp only [h, hcont, h5, hcont2, h4, hcont3, h3, if_false, ite_false,
      not_false_eq_true, ite_true] at hok
    have hlt2 : ((b0 &&& 7) <<< 18 ||| (b1 &&& 63) <<< 12 ||| (b2 &&& 63) <<< 6 |||
        b3 &&& 63) < 65536 := hlt
    rw [if_pos hlt2] at hok
    cases hok
  | case15 b0 h b1 hcont h5 b2 hcont2 h4 b3 rest hcont3 h3 c4 hge ih =>
    intro cs hok
    rw [decode_utf8.eq_def] at hok
    simp only [h, hcont, h5, hcont2, h4, hcont3, h3, if_false, ite_false,
      not_false_eq_true, ite_true] at hok
    have hge2 : ¬ ((b0 &&& 7) <<< 18 ||| (b1 &&& 63) <<< 12 ||| (b2 &&& 63) <<< 6 |||
        b3 &&& 63) < 65536 := hge
    rw [if_neg hge2] at hok
    obtain ⟨cs2, hd, rfl⟩ := exmap_ok hok
    rw [encode_utf8, ih cs2 hd,
      encode_byte4 h3 (not_not.mp hcont) (not_not.mp hcont2) (not_not.mp hcont3) hge2]
    rfl
  | case16 b0 h b1 hcont h5 b2 hcont2 h4 b3 rest hcont3 h3 =>
    intro cs hok
    rw [decode_utf8.eq_def] at hok
    simp [h, hcont, h5, hcont2, h4, hcont3, h3] at hok

/-- C7: the four-byte branch of `decode_utf8` checks overlong encodings but
not the Unicode upper bound, so the encoding of 0x110000 (bytes
F4 90 80 80) decodes without error to the out-of-range value 0x110000
(= 1114112), although the claim requires an error for every value
≥ 0x110000.  (`UnicodeCodepoint(c)` is built directly, bypassing the
`TryFrom` validator of src/utf8.rs.) -/
theorem c7_decode_accepts_out_of_range :
    decode_utf8 [0xf4, 0x90, 0x80, 0x80] = .ok [0x110000] ∧
      ¬ (0x110000 : Nat) < 0x110000 := by
  constructor
  · rfl
  · decide

/-- C8: round-trip — whenever `decode_utf8` succeeds on a byte sequence, the
encoder maps the decoded codepoint sequence back to exactly the original
bytes. -/
theorem c8_roundtrip_encode_decode (bs cs : List Nat)
    (h : decode_utf8 bs = .ok cs) : encode_utf8 cs = bs :=
  decode_encode bs cs h

/-- Witness for C8 at a concrete three-byte input (the euro sign,
E2 82 AC ↦ U+20AC). -/
theorem c8_roundtrip_witness :
    decode_utf8 [0xe2, 0x82, 0xac] = .ok [0x20ac] ∧
      encode_utf8 [0x20ac] = [0xe2, 0x82, 0xac] :=
  ⟨by rfl, c8_roundtrip_encode_decode [0xe2, 0x82, 0xac] [0x20ac] (by rfl)⟩

/-! ### C9: `BitVector::mult` shapes and semantics -/

theorem range1_succ (k n : Nat) : List.range' k (n + 1) = k :: List.range' (k + 1) n := by
  simp [List.range']

/-- The inner loop of `BitVector::mult` computes, for a row `i < N` of an
`N × N` matrix against a size-`N` vector, the OR of `a[i][j] && b[j]` over
the remaining columns. -/
theorem multRowGo_eq (a : BitMatrix) (b : BitVector) (N : Nat)
    (hI : a.size_i = N) (hJ : a.size_j = N) (hB : b.size = N)
    (i : Nat) (hi : i < N) :
    ∀ left k, k + left = N →
      multRowGo a b i N left k =
        some ((List.range' k left).any fun j =>
          a.el.getD (N * i + j) false && b.el.getD j false) := by
  intro left
  induction left with
  | zero => intro k hk; simp [multRowGo]
  | succ m ih =>
    intro k hk
    have hkN : k < N := by omega
    have hget : a.get i k = some (a.el.getD (N * i + k) false) := by
      rw [BitMatrix.get, if_pos (by omega), hJ]
    have hbget : b.get k = some (b.el.getD k false) := by
      rw [BitVector.get, if_pos (by omega)]
    rw [multRowGo, hget, range1_succ]
    cases hA : a.el.getD (N * i + k) false with
    | false =>
      rw [ih (k + 1) (by omega)]
      simp only [List.any_cons, hA, Bool.false_and, Bool.false_or]
    | true =>
      rw [hbget]
      cases hBv : b.el.getD k false with
      | false =>
        rw [ih (k + 1) (by omega)]
        simp only [List.any_cons, hA, hBv, Bool.true_and, Bool.false_or]
      | true =>
        simp only [List.any_cons, hA, hBv, Bool.true_and, Bool.true_or]

/-- The output-assembling fold of `BitVector::mult` over any list of
in-range row indices. -/
theorem multFold_eq (a : BitMatrix) (b : BitVector) (N : Nat)
    (hI : a.size_i = N) (hJ : a.size_j = N) (hB : b.size = N) :
    ∀ l : List Nat, (∀ i ∈ l, i < N) →
      l.foldr
        (fun i acc => acc.bind fun rest => (multRowGo a b i N N 0).map (· :: rest))
        (some []) =
      some (l.map fun i => (List.range N).any fun j =>
        a.el.getD (N * i + j) false && b.el.getD j false) := by
  intro l
  induction l with
  | nil => intro _; rfl
  | cons i rest ih =>
    intro hmem
    have hi : i < N := hmem i (List.mem_cons_self i rest)
    rw [List.foldr_cons, ih (fun j hj => hmem j (List.mem_cons_of_mem i hj))]
    rw [multRowGo_eq a b N hI hJ hB i hi N 0 (by omega)]
    simp [List.range_eq_range']

/-- C9 (amended): on the shapes the code actually asserts — which for an
in-range traversal force a square matrix — `BitVector::mult` succeeds and
computes `out[i] = OR over k of M[i][k] AND v[k]`.  In the engine every
matrix is `N × N`, so this covers all internal uses. -/
theorem c9_mult_square (a : BitMatrix) (b : BitVector) (N : Nat)
    (hI : a.size_i = N) (hJ : a.size_j = N) (hB : b.size = N) :
    BitVector.mult a b N =
      some ((List.range N).map fun i => (List.range N).any fun j =>
        a.el.getD (N * i + j) false && b.el.getD j false) := by
  rw [BitVector.mult, if_pos ⟨by omega, by omega⟩]
  have := multFold_eq a b N hI hJ hB (List.range N)
    (fun i hi => List.mem_range.mp hi)
  rw [hI]
  exact this

/-- Witness for the amended C9 at a concrete 2 × 2 instance. -/
theorem c9_mult_square_witness :
    BitVector.mult ⟨2, 2, [true, false, false, true]⟩ ⟨2, [false, true]⟩ 2 =
      some [false, true] :=
  (c9_mult_square ⟨2, 2, [true, false, false, true]⟩ ⟨2, [false, true]⟩ 2
    rfl rfl rfl).trans (by decide)

/-- C9 (counterexample): the claim's stated precondition is
`M.cols == v.size` and `out.size == M.rows`, but the code asserts
`M.rows == v.size` and `M.cols == out.size`, so for the non-square matrix
`M : 1 × 2` with `v` of size 2 and output size 1 the claim's precondition
holds while the call panics on its first shape assertion (modelled as
`none`), instead of succeeding. -/
theorem c9_mult_shape_counterexample :
    (BitMatrix.mk 1 2 [false, false]).size_j = (BitVector.mk 2 [false, false]).size ∧
      (1 : Nat) = (BitMatrix.mk 1 2 [false, false]).size_i ∧
      BitVector.mult (BitMatrix.mk 1 2 [false, false])
        (BitVector.mk 2 [false, false]) 1 = none := by
  refine ⟨rfl, rfl, ?_⟩
  rw [BitVector.mult]
  simp

/-! ### C1, C2: the engine against the reference language -/

/-- No word of the form `blocks each ending in b` equals the single
letter `a`; used to refute `StarL` membership below. -/
theorem star_end98 (L : List Nat → Prop)
    (hL : ∀ u, L u → ∃ u3, u = u3 ++ [98]) :
    ∀ w, StarL L w → w = [97] → False := by
  intro w hw
  cases hw with
  | nil => intro h97; cases h97
  | cons u2 v2 hu2 hv2 =>
    intro h97
    obtain ⟨u3, rfl⟩ := hL u2 hu2
    have hlen := congrArg List.length h97
    simp [List.length_append] at hlen
    have h1 : u3.length = 0 := by omega
    have h2 : v2.length = 0 := by omega
    rw [List.length_eq_zero] at h1 h2
    subst h1
    subst h2
    simp at h97

/-- The word `a` is not in the language of the pattern `(a*b)*`. -/
theorem patStarBug_not_mem : ¬ RAlt.lang patStarBug [97] := by
  intro h
  simp only [patStarBug, catOf, RAlt.lang, RCat.lang, RPart.lang, RAtom.lang] at h
  obtain ⟨u, v, hu, hv, hw⟩ := h
  subst hv
  rw [List.append_nil] at hw
  refine star_end98 _ ?_ u hu hw.symm
  intro u2 hu2
  obtain ⟨p, q, hp, ⟨p2, q2, rfl, rfl, rfl⟩, rfl⟩ := hu2
  exact ⟨p, by simp⟩

/-- C1: the failing input — the pattern `(a*b)*` compiles, and `test`
accepts the word `a`, which is not in the pattern's reference language.
(The Kleene star of a group is translated as a self-loop on the current
node, which conflates the start of one iteration with the middle of
another: after the `a*` self-loop the automaton may leave as though an
iteration had been completed without reading the mandatory `b`.) -/
theorem c1_test_accepts_nonmember :
    ((compileAst 100 patStarBug).map fun r => r.test [97]) = some true ∧
      ¬ RAlt.lang patStarBug [97] :=
  ⟨by rfl, patStarBug_not_mem⟩

/-- The word `aab` is in the language of the pattern `a*b`. -/
theorem patAstarB_mem : RAlt.lang patAstarB [97, 97, 98] := by
  simp only [patAstarB, catOf, RAlt.lang, RCat.lang, RPart.lang, RAtom.lang]
  refine ⟨[97, 97], [98], ?_, ⟨[98], [], rfl, rfl, rfl⟩, rfl⟩
  have h1 : StarL (RAtom.lang (.ch 97)) ([97] ++ []) :=
    StarL.cons [97] [] (by simp [RAtom.lang]) StarL.nil
  have h2 : StarL (RAtom.lang (.ch 97)) ([97] ++ ([97] ++ [])) :=
    StarL.cons [97] ([97] ++ []) (by simp [RAtom.lang]) h1
  simpa using h2

/-- C2: the failing input — on the pattern `a*b` and input `aab`, `find`
returns `(2, 1)` although the whole input, a substring starting at index
0 < 2, is in the pattern's language.  (Each round overwrites state 0's
value with the current index, losing the in-flight candidate that started
at 0 and was parked on state 0 by the `a*` self-loop.) -/
theorem c2_find_not_leftmost :
    ((compileAst 100 patAstarB).map fun r => r.find [97, 97, 98]) =
        some (some (2, 1)) ∧
      RAlt.lang patAstarB [97, 97, 98] :=
  ⟨by rfl, patAstarB_mem⟩

/-! ### C5, C6: `collapse_epsilons` diverges on a translator-built graph -/

theorem set0_getD : ∀ (ns : List Node) (x : Node) (k : Nat), k ≠ 0 →
    (ns.set 0 x).getD k Node.default0 = ns.getD k Node.default0 := by
  intro ns x k hk
  cases ns with
  | nil => rfl
  | cons a l =>
    cases k with
    | zero => exact absurd rfl hk
    | succ k2 => rfl

theorem set0_getD0 (ns : List Node) (x : Node) (h : 0 < ns.length) :
    (ns.set 0 x).getD 0 Node.default0 = x := by
  cases ns with
  | nil => simp at h
  | cons a l => rfl


theorem divInv_no_fuel : ∀ fuel ns, DivInv ns → collapseNode fuel ns 0 = none := by
  intro fuel
  induction fuel with
  | zero => intro ns _; rfl
  | succ m ih =>
    intro ns hP
    obtain ⟨hlen, h1e, h1p, h2, h4, h0⟩ := hP
    rcases h0 with h0 | h0 | h0
    · rw [collapseNode, h0, show popBack [2] = some (2, []) from rfl]
      dsimp only
      rw [if_neg (show ¬ (2 : Nat) = 0 by decide)]
      apply ih
      refine ⟨by simpa using hlen, ?_, ?_, ?_, ?_, Or.inr (Or.inl ?_)⟩
      · rw [set0_getD _ _ _ (by decide)]; exact h1e
      · rw [set0_getD _ _ _ (by decide)]; exact h1p
      · rw [set0_getD _ _ _ (by decide)]; exact h2
      · rw [set0_getD _ _ _ (by decide)]; exact h4
      · rw [set0_getD0 _ _ hlen]; simp only [List.nil_append, h2]
    · rw [collapseNode, h0, show popBack [4, 1] = some (1, [4]) from rfl]
      dsimp only
      rw [if_neg (show ¬ (1 : Nat) = 0 by decide)]
      apply ih
      refine ⟨by simpa using hlen, ?_, ?_, ?_, ?_, Or.inr (Or.inr ?_)⟩
      · rw [set0_getD _ _ _ (by decide)]; exact h1e
      · rw [set0_getD _ _ _ (by decide)]; exact h1p
      · rw [set0_getD _ _ _ (by decide)]; exact h2
      · rw [set0_getD _ _ _ (by decide)]; exact h4
      · rw [set0_getD0 _ _ hlen]; simp only [List.append_nil, h1p]
    · rw [collapseNode, h0, show popBack [4] = some (4, []) from rfl]
      dsimp only
      rw [if_neg (show ¬ (4 : Nat) = 0 by decide)]
      apply ih
      refine ⟨by simpa using hlen, ?_, ?_, ?_, ?_, Or.inl ?_⟩
      · rw [set0_getD _ _ _ (by decide)]; exact h1e
      · rw [set0_getD _ _ _ (by decide)]; exact h1p
      · rw [set0_getD _ _ _ (by decide)]; exact h2
      · rw [set0_getD _ _ _ (by decide)]; exact h4
      · rw [set0_getD0 _ _ hlen]; simp only [List.nil_append, h4]

/-- `collapse_epsilons` never finishes on the translator graph of the
pattern `(x|)((a|)|b)*`, whatever the fuel. -/
theorem collapse_patDiv_diverges :
    ∀ fuel, (buildGraph patDiv).collapse_epsilons fuel = none := by
  intro fuel
  rw [Graph.collapse_epsilons,
    show (buildGraph patDiv).nodes.length = 7 from rfl, collapseGo]
  rw [divInv_no_fuel fuel (buildGraph patDiv).nodes
    (by refine ⟨by decide, ?_, ?_, ?_, ?_, Or.inl ?_⟩ <;> rfl)]
  rfl

/-- C6: the failing input — `collapse_epsilons` does not terminate on the
builder-reachable graph the translator produces for `(x|)((a|)|b)*`: while
processing node 0 it forever re-pops the epsilon cycle between nodes 2 and
4 (neither of which equals 0), so the inner loop never empties node 0's
epsilon list, contradicting the claimed termination. -/
theorem c6_collapse_diverges_on_builder_graph :
    ∀ fuel, (buildGraph patDiv).collapse_epsilons fuel = none :=
  collapse_patDiv_diverges

/-- C5 (counterexample): on the translator-built graph of `(x|)((a|)|b)*`
the pass never completes, so there is no post-run graph whose finality and
edges could match the epsilon closure of the original. -/
theorem c5_collapse_nontermination_counterexample :
    ¬ ∃ fuel g2, (buildGraph patDiv).collapse_epsilons fuel = some g2 := by
  rintro ⟨fuel, g2, h⟩
  rw [collapse_patDiv_diverges fuel] at h
  cases h

/-! ### C10: bounds of `find` results -/


theorem bndV_mono {acc : List (Option Nat)} {i j : Nat} (h : BndV acc i)
    (hij : i ≤ j) : BndV acc j :=
  fun v hv x hx => le_trans (h v hv x hx) hij

theorem bndV_replicate (n i : Nat) : BndV (List.replicate n none) i := by
  intro v hv x hx
  rw [List.eq_of_mem_replicate hv] at hx
  cases hx

theorem bndV_set0 {acc : List (Option Nat)} {i y : Nat} (h : BndV acc i)
    (hy : y ≤ i) : BndV (acc.set 0 (some y)) i := by
  intro v hv x hx
  rcases List.mem_or_eq_of_mem_set hv with hv2 | hv2
  · exact h v hv2 x hx
  · rw [hv2] at hx
    cases hx
    exact hy

theorem bndV_getD {acc : List (Option Nat)} {i k x : Nat} (h : BndV acc i)
    (hx : acc.getD k none = some x) : x ≤ i := by
  rw [List.getD_eq_getElem?_getD] at hx
  cases hh : acc[k]? with
  | none => rw [hh] at hx; cases hx
  | some v =>
    rw [hh] at hx
    simp at hx
    subst hx
    exact h _ (List.getElem?_mem hh) x rfl

/-- A `min_some` fold that produces a value got it from its seed or from
one of the list elements. -/
theorem foldl_min_some_src : ∀ (l : List (Option Nat)) (a0 : Option Nat) (s : Nat),
    l.foldl min_some a0 = some s → a0 = some s ∨ some s ∈ l := by
  intro l
  induction l with
  | nil => intro a0 s h; exact Or.inl h
  | cons hd tl ih =>
    intro a0 s h
    rcases ih (min_some a0 hd) s h with h2 | h2
    · cases a0 with
      | none =>
        cases hd with
        | none => simp [min_some] at h2
        | some y =>
          simp only [min_some] at h2
          exact Or.inr (by rw [← h2]; exact List.mem_cons_self _ _)
      | some x =>
        cases hd with
        | none => exact Or.inl h2
        | some y =>
          simp only [min_some] at h2
          rcases min_choice x y with hm | hm
          · exact Or.inl (by rw [← h2, hm])
          · exact Or.inr (by rw [← h2, hm]; exact List.mem_cons_self _ _)
    · exact Or.inr (List.mem_cons_of_mem _ h2)

/-- A successful `nfaDot` returns a value held by the vector. -/
theorem nfaDot_src {a : List (Option Nat)} {b : List Bool} {s : Nat}
    (h : nfaDot a b = some s) : some s ∈ a := by
  rw [nfaDot] at h
  rcases foldl_min_some_src _ _ _ h with h2 | h2
  · cases h2
  · obtain ⟨p, hp, hps⟩ := List.mem_map.mp h2
    have := List.of_mem_zip hp
    rcases p with ⟨v, bt⟩
    by_cases hb : bt = true
    · simp only [hb, if_true] at hps
      have hv : v ∈ a := this.1
      rw [hps] at hv
      exact hv
    · simp [hb] at hps

/-- A gated `min_some` fold got its value from one of the gated reads. -/
theorem foldl_gate_src (m : List (List Bool)) (acc : List (Option Nat)) (i : Nat) :
    ∀ (l : List Nat) (a0 : Option Nat) (x : Nat),
      l.foldl (fun value k => if matGet m i k then min_some value (acc.getD k none)
        else value) a0 = some x →
      a0 = some x ∨ ∃ k ∈ l, acc.getD k none = some x := by
  intro l
  induction l with
  | nil => intro a0 x h; exact Or.inl h
  | cons hd tl ih =>
    intro a0 x h
    rcases ih _ x h with h2 | h2
    · by_cases hg : matGet m i hd = true
      · simp only [hg, if_true] at h2
        cases ha : a0 with
        | none =>
          rw [ha] at h2
          cases hv : acc.getD hd none with
          | none => rw [hv] at h2; simp [min_some] at h2
          | some y =>
            rw [hv] at h2
            simp only [min_some] at h2
            exact Or.inr ⟨hd, List.mem_cons_self _ _, by rw [hv, h2]⟩
        | some w =>
          rw [ha] at h2
          cases hv : acc.getD hd none with
          | none =>
            rw [hv] at h2
            simp only [min_some] at h2
            exact Or.inl h2
          | some y =>
            rw [hv] at h2
            simp only [min_some] at h2
            rcases min_choice w y with hm | hm
            · exact Or.inl (by rw [← hm]; exact h2)
            · exact Or.inr ⟨hd, List.mem_cons_self _ _,
                hv.trans (by rw [← hm]; exact h2)⟩
      · simp only [hg, if_false] at h2
        exact Or.inl h2
    · obtain ⟨k, hk, hks⟩ := h2
      exact Or.inr ⟨k, List.mem_cons_of_mem _ hk, hks⟩

/-- `nfaApply` only propagates values already present in the accumulator. -/
theorem bndV_nfaApply {acc : List (Option Nat)} {i : Nat} (h : BndV acc i)
    (n : Nat) (m : List (List Bool)) : BndV (nfaApply n m acc) i := by
  intro v hv x hx
  rw [nfaApply] at hv
  obtain ⟨k0, _, hk0⟩ := List.mem_map.mp hv
  subst hk0
  rcases foldl_gate_src m acc k0 _ _ x (by rw [← hx]) with h2 | h2
  · cases h2
  · obtain ⟨k, _, hks⟩ := h2
    exact bndV_getD h hks

/-- Loop part of the C10 bound: a successful `findGo` run returns at some
round `i + j` with a start value bounded by the round index. -/
theorem findGo_bounds (r : RegexC) :
    ∀ (s : List Nat) (acc : List (Option Nat)) (i st l : Nat),
      BndV acc i → r.findGo acc i s = some (st, l) →
      ∃ j, j < s.length ∧ st ≤ i + j ∧ l = (i + j) - st + 1 := by
  intro s
  induction s with
  | nil => intro acc i st l _ h; cases h
  | cons t rest ih =>
    intro acc i st l hB h
    rw [RegexC.findGo] at h
    cases hlk : r.lookupTok t with
    | none =>
      rw [hlk] at h
      obtain ⟨j, hj, hst, hl⟩ := ih _ (i + 1) st l (bndV_replicate _ _) h
      exact ⟨j + 1, by simpa using hj, by omega, by omega⟩
    | some m =>
      rw [hlk] at h
      dsimp only at h
      have hB2 : BndV (nfaApply r.n m ((acc.set 0 (some i)))) i :=
        bndV_nfaApply (bndV_set0 hB (le_refl i)) r.n m
      cases hdot : nfaDot (nfaApply r.n m (acc.set 0 (some i))) r.final_nodes with
      | some s0 =>
        rw [hdot] at h
        have hs0 : s0 ≤ i := by
          have hm := nfaDot_src hdot
          exact hB2 _ hm s0 rfl
        cases h
        exact ⟨0, by simp, by omega, by omega⟩
      | none =>
        rw [hdot] at h
        obtain ⟨j, hj, hst, hl⟩ := ih _ (i + 1) st l
          (bndV_mono hB2 (by omega)) h
        exact ⟨j + 1, by simpa using hj, by omega, by omega⟩

/-- C10: bounds of `find` results — a reported match satisfies
`s + l ≤ |S|`; a zero length only arises from the pre-scan result `(0, 0)`;
and any loop-produced result comes from a round `j < |S|` with `s ≤ j` and
`l = j - s + 1` (so the Rust length computation `index - start + 1` never
underflows). -/
theorem c10_find_bounds (r : RegexC) (S : List Nat) (st l : Nat)
    (h : r.find S = some (st, l)) :
    st + l ≤ S.length ∧ (l = 0 → (st, l) = (0, 0)) ∧
      (l ≠ 0 → ∃ j, j < S.length ∧ st ≤ j ∧ l = j - st + 1) := by
  rw [RegexC.find] at h
  by_cases hpre : (nfaDot ((List.replicate r.n none).set 0 (some 0))
      r.final_nodes).isSome
  · rw [if_pos hpre] at h
    cases h
    refine ⟨by omega, fun _ => rfl, fun hl => absurd rfl hl⟩
  · rw [if_neg hpre] at h
    have hB : BndV ((List.replicate r.n none).set 0 (some 0)) 0 :=
      bndV_set0 (bndV_replicate _ _) (le_refl 0)
    obtain ⟨j, hj, hst, hl⟩ := findGo_bounds r S _ 0 st l hB h
    refine ⟨by omega, fun hl0 => absurd hl0 (by omega), fun _ => ⟨j, by omega, by omega, by omega⟩⟩

/-- Witness for C10 on the compiled pattern `a` and the input `ba`:
`find` returns `(1, 1)`, and the bounds hold at that instance. -/
theorem c10_find_bounds_witness :
    1 + 1 ≤ ([98, 97] : List Nat).length ∧
      ((1 : Nat) = 0 → ((1 : Nat), (1 : Nat)) = (0, 0)) ∧
      ((1 : Nat) ≠ 0 → ∃ j, j < ([98, 97] : List Nat).length ∧ 1 ≤ j ∧ 1 = j - 1 + 1) :=
  c10_find_bounds
    ⟨3, [(97, [[false, false, false], [false, false, false], [true, false, false]])],
      [false, true, true]⟩ [98, 97] 1 1 (by rfl)

/-! ### C5 (amended): characterization of `collapse_epsilons` on
terminating runs -/

theorem getD_set_ne (ns : List Node) (a : Nat) (x : Node) (k : Nat)
    (hk : k ≠ a) :
    (ns.set a x).getD k Node.default0 = ns.getD k Node.default0 := by
  simp [List.getD_eq_getElem?_getD,
    List.getElem?_set_ne (show a ≠ k from fun h => hk h.symm)]

theorem getD_set_self (ns : List Node) (a : Nat) (x : Node)
    (ha : a < ns.length) :
    (ns.set a x).getD a Node.default0 = x := by
  simp [List.getD_eq_getElem?_getD, List.getElem?_set_self, ha]

theorem popBack_none {l : List Nat} (h : popBack l = none) : l = [] := by
  cases l with
  | nil => rfl
  | cons x xs =>
    rw [popBack] at h
    · rw [List.getLast?_eq_getLast (x :: xs) (by simp)] at h
      cases h
    · simp

theorem popBack_eq {l : List Nat} {b : Nat} {rest : List Nat}
    (h : popBack l = some (b, rest)) : l = rest ++ [b] := by
  cases l with
  | nil => cases h
  | cons x xs =>
    rw [popBack] at h
    · rw [List.getLast?_eq_getLast (x :: xs) (by simp)] at h
      simp only [Option.map_some] at h
      cases h
      exact (List.dropLast_append_getLast (by simp)).symm
    · simp

theorem epsCl_closed {orig : List Node} {a : Nat} {T : Set Nat}
    (ha : a ∈ T) (hSucc : ∀ b ∈ T, ∀ e, epsMem orig b e → e ∈ T) :
    ∀ d, EpsCl orig a d → d ∈ T := by
  intro d h
  induction h with
  | refl => exact ha
  | tail hab hbc ih => exact hSucc _ ih _ hbc

theorem collapseNode_spec (orig : List Node) (a : Nat) :
    ∀ fuel ns ns2, CtxAt orig ns a → NInv orig a (ns.getD a Node.default0) →
      collapseNode fuel ns a = some ns2 →
      CtxAt orig ns2 a ∧ NodeSpec orig a (ns2.getD a Node.default0) := by
  intro fuel
  induction fuel with
  | zero => intro ns ns2 _ _ h; cases h
  | succ m ih =>
    intro ns ns2 hCtx hInv h
    rw [collapseNode] at h
    dsimp only at h
    cases hpop : popBack (ns.getD a Node.default0).epsilon_edges with
    | none =>
      rw [hpop] at h
      injection h with h2
      subst h2
      obtain ⟨T, haT, hTsub, hLsub, hF, hE, hSucc, hLow⟩ := hInv
      have hempty := popBack_none hpop
      have hclosed : ∀ b ∈ T, ∀ e, epsMem orig b e → e ∈ T := by
        intro b hb e he
        rcases hSucc b hb e he with h1 | h1
        · exact h1
        · rw [hempty] at h1
          cases h1
      have hclT : ∀ d, EpsCl orig a d → d ∈ T := epsCl_closed haT hclosed
      refine ⟨hCtx, hempty, ⟨?_, ?_⟩, fun t c => ⟨?_, ?_⟩⟩
      · intro hf
        obtain ⟨b, hb, hfin⟩ := hF.mp hf
        exact ⟨b, hTsub b hb, hfin⟩
      · rintro ⟨b, hcl, hfin⟩
        exact hF.mpr ⟨b, hclT b hcl, hfin⟩
      · intro hm
        obtain ⟨b, hb, hedge⟩ := (hE t c).mp hm
        exact ⟨b, hTsub b hb, hedge⟩
      · rintro ⟨b, hcl, hedge⟩
        exact (hE t c).mpr ⟨b, hclT b hcl, hedge⟩
    | some br =>
      obtain ⟨b, rest⟩ := br
      rw [hpop] at h
      dsimp only at h
      have hlist := popBack_eq hpop
      have haLen : a < ns.length := by
        by_contra hcon
        rw [List.getD_eq_default _ _ (by omega)] at hlist
        simp [Node.default0] at hlist
      obtain ⟨T, haT, hTsub, hTL, hF, hE, hSucc, hLow⟩ := hInv
      have hbmem : b ∈ (ns.getD a Node.default0).epsilon_edges := by
        rw [hlist]
        exact List.mem_append_right _ (List.mem_singleton.mpr rfl)
      have hab : EpsCl orig a b := hTL b hbmem
      by_cases hba : b = a
      · rw [if_pos hba] at h
        refine (ih _ ns2 ?_ ?_ h).imp id id
        · exact ⟨by simpa using hCtx.1,
            fun p hp => by rw [getD_set_ne _ _ _ _ (by omega)]; exact hCtx.2.1 p hp,
            fun p hp => by rw [getD_set_ne _ _ _ _ (by omega)]; exact hCtx.2.2 p hp⟩
        · rw [getD_set_self _ _ _ haLen]
          refine ⟨T, haT, hTsub, ?_, hF, hE, ?_, hLow⟩
          · intro e he
            exact hTL e (by rw [hlist]; exact List.mem_append_left _ he)
          · intro b2 hb2 e he
            rcases hSucc b2 hb2 e he with h1 | h1
            · exact Or.inl h1
            · rw [hlist] at h1
              rcases List.mem_append.mp h1 with h2 | h2
              · exact Or.inr h2
              · rw [List.mem_singleton.mp h2, hba]
                exact Or.inl haT
      · rw [if_neg hba] at h
        by_cases hblt : b < a
        · -- popped an already processed node: inherit its whole closure
          obtain ⟨hbEps, hbF, hbE⟩ := hCtx.2.1 b hblt
          refine (ih _ ns2 ?_ ?_ h).imp id id
          · exact ⟨by simpa using hCtx.1,
              fun p hp => by rw [getD_set_ne _ _ _ _ (by omega)]; exact hCtx.2.1 p hp,
              fun p hp => by rw [getD_set_ne _ _ _ _ (by omega)]; exact hCtx.2.2 p hp⟩
          · rw [getD_set_self _ _ _ haLen]
            refine ⟨{d | d ∈ T ∨ EpsCl orig b d}, Or.inl haT, ?_, ?_, ?_, ?_, ?_, ?_⟩
            · rintro d (hd | hd)
              · exact hTsub d hd
              · exact hab.trans hd
            · intro e he
              rcases List.mem_append.mp he with h1 | h1
              · exact hTL e (by rw [hlist]; exact List.mem_append_left _ h1)
              · rw [hbEps] at h1
                cases h1
            · rw [Bool.or_eq_true]
              constructor
              · rintro (hf | hf)
                · obtain ⟨d, hd, hdf⟩ := hF.mp hf
                  exact ⟨d, Or.inl hd, hdf⟩
                · obtain ⟨d, hd, hdf⟩ := hbF.mp hf
                  exact ⟨d, Or.inr hd, hdf⟩
              · rintro ⟨d, hd | hd, hdf⟩
                · exact Or.inl (hF.mpr ⟨d, hd, hdf⟩)
                · exact Or.inr (hbF.mpr ⟨d, hd, hdf⟩)
            · intro t c
              rw [List.mem_append]
              constructor
              · rintro (hm | hm)
                · obtain ⟨d, hd, hde⟩ := (hE t c).mp hm
                  exact ⟨d, Or.inl hd, hde⟩
                · obtain ⟨d, hd, hde⟩ := (hbE t c).mp hm
                  exact ⟨d, Or.inr hd, hde⟩
              · rintro ⟨d, hd | hd, hde⟩
                · exact Or.inl ((hE t c).mpr ⟨d, hd, hde⟩)
                · exact Or.inr ((hbE t c).mpr ⟨d, hd, hde⟩)
            · rintro b2 (hb2 | hb2) e he
              · rcases hSucc b2 hb2 e he with h1 | h1
                · exact Or.inl (Or.inl h1)
                · rw [hlist] at h1
                  rcases List.mem_append.mp h1 with h2 | h2
                  · exact Or.inr (List.mem_append_left _ h2)
                  · rw [List.mem_singleton.mp h2]
                    exact Or.inl (Or.inr Relation.ReflTransGen.refl)
              · exact Or.inl (Or.inr (hb2.tail he))
            · rintro b2 (hb2 | hb2) hb2a d hd
              · exact Or.inl (hLow b2 hb2 hb2a d hd)
              · exact Or.inr (hb2.trans hd)
        · -- popped a not-yet-processed node: inherit its raw lists
          have hbgt : a < b := by omega
          have hborig : ns.getD b Node.default0 = orig.getD b Node.default0 :=
            hCtx.2.2 b hbgt
          refine (ih _ ns2 ?_ ?_ h).imp id id
          · exact ⟨by simpa using hCtx.1,
              fun p hp => by rw [getD_set_ne _ _ _ _ (by omega)]; exact hCtx.2.1 p hp,
              fun p hp => by rw [getD_set_ne _ _ _ _ (by omega)]; exact hCtx.2.2 p hp⟩
          · rw [getD_set_self _ _ _ haLen]
            refine ⟨{d | d ∈ T ∨ d = b}, Or.inl haT, ?_, ?_, ?_, ?_, ?_, ?_⟩
            · rintro d (hd | rfl)
              · exact hTsub d hd
              · exact hab
            · intro e he
              rcases List.mem_append.mp he with h1 | h1
              · exact hTL e (by rw [hlist]; exact List.mem_append_left _ h1)
              · rw [hborig] at h1
                exact hab.tail h1
            · rw [Bool.or_eq_true]
              constructor
              · rintro (hf | hf)
                · obtain ⟨d, hd, hdf⟩ := hF.mp hf
                  exact ⟨d, Or.inl hd, hdf⟩
                · rw [hborig] at hf
                  exact ⟨b, Or.inr rfl, hf⟩
              · rintro ⟨d, hd | rfl, hdf⟩
                · exact Or.inl (hF.mpr ⟨d, hd, hdf⟩)
                · rw [finalAt, ← hborig] at hdf
                  exact Or.inr hdf
            · intro t c
              rw [List.mem_append]
              constructor
              · rintro (hm | hm)
                · obtain ⟨d, hd, hde⟩ := (hE t c).mp hm
                  exact ⟨d, Or.inl hd, hde⟩
                · rw [hborig] at hm
                  exact ⟨b, Or.inr rfl, hm⟩
              · rintro ⟨d, hd | rfl, hde⟩
                · exact Or.inl ((hE t c).mpr ⟨d, hd, hde⟩)
                · rw [edgeMem, ← hborig] at hde
                  exact Or.inr hde
            · rintro b2 (hb2 | rfl) e he
              · rcases hSucc b2 hb2 e he with h1 | h1
                · exact Or.inl (Or.inl h1)
                · rw [hlist] at h1
                  rcases List.mem_append.mp h1 with h2 | h2
                  · exact Or.inr (List.mem_append_left _ h2)
                  · rw [List.mem_singleton.mp h2]
                    exact Or.inl (Or.inr rfl)
              · rw [epsMem, ← hborig] at he
                exact Or.inr (List.mem_append_right _ he)
            · rintro b2 (hb2 | rfl) hb2a d hd
              · exact Or.inl (hLow b2 hb2 hb2a d hd)
              · omega

theorem collapseGo_spec (orig : List Node) :
    ∀ cnt fuel ns a, ProcAt orig ns a →
      ∀ ns2, collapseGo fuel cnt ns a = some ns2 →
      ProcAt orig ns2 (a + cnt) := by
  intro cnt
  induction cnt with
  | zero =>
    intro fuel ns a hP ns2 h
    rw [collapseGo] at h
    injection h with h2
    subst h2
    simpa using hP
  | succ m ihc =>
    intro fuel ns a hP ns2 h
    rw [collapseGo] at h
    cases hcn : collapseNode fuel ns a with
    | none =>
      rw [hcn] at h
      cases h
    | some ns1 =>
      rw [hcn] at h
      have hCtx : CtxAt orig ns a :=
        ⟨hP.1, hP.2.1, fun p hp => hP.2.2 p (by omega)⟩
      have horig : ns.getD a Node.default0 = orig.getD a Node.default0 :=
        hP.2.2 a (le_refl a)
      have hInv : NInv orig a (ns.getD a Node.default0) := by
        refine ⟨{a}, rfl, ?_, ?_, ?_, ?_, ?_, ?_⟩
        · rintro d rfl
          exact Relation.ReflTransGen.refl
        · intro e he
          rw [horig] at he
          exact Relation.ReflTransGen.single he
        · rw [horig]
          constructor
          · intro hf
            exact ⟨a, rfl, hf⟩
          · rintro ⟨d, rfl, hdf⟩
            exact hdf
        · intro t c
          rw [horig]
          constructor
          · intro hm
            exact ⟨a, rfl, hm⟩
          · rintro ⟨d, rfl, hdm⟩
            exact hdm
        · rintro b2 rfl e he
          rw [horig]
          exact Or.inr he
        · rintro b2 rfl hlt
          omega
      obtain ⟨hCtx2, hSpec⟩ := collapseNode_spec orig a fuel ns ns1 hCtx hInv hcn
      have hP1 : ProcAt orig ns1 (a + 1) := by
        refine ⟨hCtx2.1, ?_, ?_⟩
        · intro p hp
          by_cases hpa : p = a
          · subst hpa
            exact hSpec
          · exact hCtx2.2.1 p (by omega)
        · intro p hp
          exact hCtx2.2.2 p (by omega)
      have hres := ihc fuel ns1 (a + 1) hP1 ns2 h
      have harith : a + 1 + m = a + (m + 1) := by omega
      rw [harith] at hres
      exact hres

/-- Out-of-range indices trivially satisfy the processed-node spec. -/
theorem nodeSpec_out (orig : List Node) (a : Nat) (ha : orig.length ≤ a) :
    NodeSpec orig a Node.default0 := by
  have hcl : ∀ b, EpsCl orig a b → b = a := by
    intro b h
    induction h with
    | refl => rfl
    | tail hab hbc ih =>
      rw [ih] at hbc
      rw [epsMem, List.getD_eq_default _ _ ha] at hbc
      cases hbc
  refine ⟨rfl, ⟨?_, ?_⟩, fun t c => ⟨?_, ?_⟩⟩
  · intro hf
    simp [Node.default0] at hf
  · rintro ⟨b, hcl2, hfin⟩
    rw [hcl b hcl2, finalAt, List.getD_eq_default _ _ ha] at hfin
    simp [Node.default0] at hfin
  · intro hm
    simp [Node.default0] at hm
  · rintro ⟨b, hcl2, hedge⟩
    rw [hcl b hcl2, edgeMem, List.getD_eq_default _ _ ha] at hedge
    simp [Node.default0] at hedge

/-- Characterization of every terminating `collapse_epsilons` run: the node
count is unchanged, and every node satisfies `NodeSpec` — its epsilon list
is empty, it is final iff a final node was epsilon-reachable from it in the
original graph, and it carries a labeled edge iff some epsilon-reachable
node did. -/
theorem collapse_char (g g2 : Graph) (fuel : Nat)
    (h : g.collapse_epsilons fuel = some g2) :
    g2.nodes.length = g.nodes.length ∧
    ∀ a, NodeSpec g.nodes a (g2.nodes.getD a Node.default0) := by
  rw [Graph.collapse_epsilons] at h
  cases hgo : collapseGo fuel g.nodes.length g.nodes 0 with
  | none =>
    rw [hgo] at h
    cases h
  | some ns2 =>
    rw [hgo] at h
    injection h with h2
    have hP0 : ProcAt g.nodes g.nodes 0 :=
      ⟨rfl, fun p hp => absurd hp (by omega), fun p _ => rfl⟩
    have hres := collapseGo_spec g.nodes g.nodes.length fuel g.nodes 0 hP0 ns2 hgo
    rw [Nat.zero_add] at hres
    have hlen : ns2.length = g.nodes.length := hres.1
    have hnodes : g2.nodes = ns2 := by rw [← h2]
    constructor
    · rw [hnodes]
      exact hlen
    · intro a
      rw [hnodes]
      by_cases hrange : a < g.nodes.length
      · exact hres.2.1 a hrange
      · rw [List.getD_eq_default _ _ (by omega)]
        exact nodeSpec_out g.nodes a (by omega)

/-! ### Builder monotonicity and path lifting -/

theorem getD_set (ns : List Node) (x : Nat) (v : Node) (k : Nat) :
    (ns.set x v).getD k Node.default0 =
      if k = x ∧ x < ns.length then v else ns.getD k Node.default0 := by
  by_cases h1 : k = x
  · subst h1
    by_cases h2 : k < ns.length
    · rw [getD_set_self _ _ _ h2, if_pos ⟨rfl, h2⟩]
    · rw [List.set_eq_of_length_le (by omega), if_neg (by tauto)]
  · rw [getD_set_ne _ _ _ _ h1, if_neg (by tauto)]

theorem getD_append_node (ns : List Node) (x : Node) (k : Nat) :
    (ns ++ [x]).getD k Node.default0 =
      if k < ns.length then ns.getD k Node.default0
      else if k = ns.length then x else Node.default0 := by
  rw [List.getD_eq_getElem?_getD, List.getElem?_append]
  by_cases h1 : k < ns.length
  · rw [if_pos h1, if_pos h1, List.getD_eq_getElem?_getD]
  · rw [if_neg h1, if_neg h1]
    by_cases h2 : k = ns.length
    · subst h2
      simp
    · have : 0 < k - ns.length := by omega
      have hnone : ([x] : List Node)[k - ns.length]? = none := by
        rw [List.getElem?_eq_none]
        simp
        omega
      rw [hnone, if_neg h2]
      rfl

theorem gext_refl (g : Graph) : GExt g g :=
  ⟨fun _ _ _ h => h, fun _ _ h => h, fun _ h => h⟩

theorem gext_trans {g1 g2 g3 : Graph} (h12 : GExt g1 g2) (h23 : GExt g2 g3) :
    GExt g1 g3 :=
  ⟨fun a t c h => h23.1 a t c (h12.1 a t c h),
   fun a b h => h23.2.1 a b (h12.2.1 a b h),
   fun a h => h23.2.2 a (h12.2.2 a h)⟩

theorem gle_refl (g : Graph) : GLe g g := ⟨le_refl _, gext_refl g⟩

theorem gle_trans {g1 g2 g3 : Graph} (h12 : GLe g1 g2) (h23 : GLe g2 g3) :
    GLe g1 g3 :=
  ⟨le_trans h12.1 h23.1, gext_trans h12.2 h23.2⟩

theorem gext_update (g : Graph) (x : Nat) (f : Node → Node)
    (hfF : ∀ nd, nd.is_final = true → (f nd).is_final = true)
    (hfE : ∀ nd e, e ∈ nd.edges → e ∈ (f nd).edges)
    (hfP : ∀ nd b, b ∈ nd.epsilon_edges → b ∈ (f nd).epsilon_edges) :
    GExt g (g.update x f) := by
  refine ⟨?_, ?_, ?_⟩
  · intro a t c hm
    rw [edgeMem, Graph.update, getD_set]
    by_cases hax : a = x ∧ x < g.nodes.length
    · rw [if_pos hax]
      rw [edgeMem, ← hax.1] at *
      exact hfE _ _ hm
    · rw [if_neg hax]
      exact hm
  · intro a b hm
    rw [epsMem, Graph.update, getD_set]
    by_cases hax : a = x ∧ x < g.nodes.length
    · rw [if_pos hax]
      rw [epsMem, ← hax.1] at *
      exact hfP _ _ hm
    · rw [if_neg hax]
      exact hm
  · intro a hm
    rw [finalAt, Graph.update, getD_set]
    by_cases hax : a = x ∧ x < g.nodes.length
    · rw [if_pos hax]
      rw [finalAt, ← hax.1] at *
      exact hfF _ hm
    · rw [if_neg hax]
      exact hm

theorem gle_connect (g : Graph) (x y tok : Nat) : GLe g (g.connect x y tok) :=
  ⟨by simp [Graph.connect, Graph.update],
   gext_update g x _ (fun _ h => h) (fun _ _ h => List.mem_append_left _ h)
     (fun _ _ h => h)⟩

theorem gle_connect_epsilon (g : Graph) (x y : Nat) :
    GLe g (g.connect_epsilon x y) :=
  ⟨by simp [Graph.connect_epsilon, Graph.update],
   gext_update g x _ (fun _ h => h) (fun _ _ h => h)
     (fun _ _ h => List.mem_append_left _ h)⟩

theorem gle_set_final (g : Graph) (x : Nat) : GLe g (g.set_final x) :=
  ⟨by simp [Graph.set_final, Graph.update],
   gext_update g x _ (fun _ _ => rfl) (fun _ _ h => h) (fun _ _ h => h)⟩

theorem gle_add_node (g : Graph) : GLe g (g.add_node).1 := by
  refine ⟨by simp [Graph.add_node], ?_, ?_, ?_⟩
  · intro a t c hm
    rw [edgeMem, Graph.add_node, getD_append_node]
    by_cases ha : a < g.nodes.length
    · rw [if_pos ha]
      exact hm
    · rw [edgeMem, List.getD_eq_default _ _ (by omega)] at hm
      simp [Node.default0] at hm
  · intro a b hm
    rw [epsMem, Graph.add_node, getD_append_node]
    by_cases ha : a < g.nodes.length
    · rw [if_pos ha]
      exact hm
    · rw [epsMem, List.getD_eq_default _ _ (by omega)] at hm
      simp [Node.default0] at hm
  · intro a hm
    rw [finalAt, Graph.add_node, getD_append_node]
    by_cases ha : a < g.nodes.length
    · rw [if_pos ha]
      exact hm
    · rw [finalAt, List.getD_eq_default _ _ (by omega)] at hm
      simp [Node.default0] at hm

theorem gpath_mono {g1 g2 : Graph} (h : GExt g1 g2) {q r : Nat} {w : List Nat}
    (hp : GPath g1.nodes q w r) : GPath g2.nodes q w r := by
  induction hp with
  | refl q2 => exact GPath.refl q2
  | eps he _ ih => exact GPath.eps (h.2.1 _ _ he) ih
  | step he _ ih => exact GPath.step (h.1 _ _ _ he) ih

theorem gpath_append {ns : List Node} {q r s : Nat} {w1 w2 : List Nat}
    (h1 : GPath ns q w1 r) (h2 : GPath ns r w2 s) :
    GPath ns q (w1 ++ w2) s := by
  induction h1 with
  | refl q2 => simpa using h2
  | eps he _ ih => exact GPath.eps he (ih h2)
  | step he _ ih => exact GPath.step he (ih h2)

mutual
theorem addAtom_gle (atom : RAtom) : ∀ g prev nxt, GLe g (addAtom g prev nxt atom)
  | g, prev, nxt => by
    cases atom with
    | ch c => exact gle_connect g prev nxt c
    | group a => exact addAlts_gle a g prev nxt
theorem addParts_gle (c : RCat) : ∀ g prev endN, GLe g (addParts g prev endN c)
  | g, prev, endN => by
    cases c with
    | nil =>
      rw [addParts]
      by_cases h : prev = endN
      · rw [if_pos h]
        exact gle_refl g
      · rw [if_neg h]
        exact gle_connect_epsilon g prev endN
    | cons p rest =>
      obtain ⟨atom, star⟩ := p
      rw [addParts]
      cases star with
      | true =>
        rw [if_pos rfl]
        exact gle_trans (addAtom_gle atom g prev prev)
          (addParts_gle rest _ prev endN)
      | false =>
        rw [if_neg (by simp)]
        exact gle_trans (gle_add_node g)
          (gle_trans (addAtom_gle atom _ prev (g.add_node).2)
            (addParts_gle rest _ (g.add_node).2 endN))
theorem addAlts_gle (al : RAlt) : ∀ g s e, GLe g (addAlts g s e al)
  | g, s, e => by
    cases al with
    | last c => exact addParts_gle c g s e
    | cons c rest =>
      exact gle_trans (addParts_gle c g s e) (addAlts_gle rest _ s e)
end

/-- Iterating a loop at node `q` accepts any word of the starred
language. -/
theorem starL_path {L : List Nat → Prop} {ns : List Node} {q : Nat}
    (hL : ∀ u, L u → GPath ns q u q) : ∀ w, StarL L w → GPath ns q w q := by
  intro w hw
  induction hw with
  | nil => exact GPath.refl q
  | cons u v hu _ ih => exact gpath_append (hL u hu) ih

mutual
theorem addAtom_complete (atom : RAtom) : ∀ g prev nxt w,
    prev < g.nodes.length → atom.lang w →
    GPath (addAtom g prev nxt atom).nodes prev w nxt
  | g, prev, nxt, w => by
    cases atom with
    | ch c =>
      intro hprev hw
      rw [RAtom.lang] at hw
      subst hw
      refine GPath.step (t := nxt) ?_ (GPath.refl nxt)
      rw [edgeMem, addAtom, Graph.connect, Graph.update, getD_set,
        if_pos ⟨rfl, hprev⟩]
      exact List.mem_append_right _ (List.mem_singleton.mpr rfl)
    | group a =>
      intro hprev hw
      rw [RAtom.lang] at hw
      exact addAlts_complete a g prev nxt w hprev hw
theorem addParts_complete (c : RCat) : ∀ g prev endN w,
    prev < g.nodes.length → c.lang w →
    GPath (addParts g prev endN c).nodes prev w endN
  | g, prev, endN, w => by
    cases c with
    | nil =>
      intro hprev hw
      rw [RCat.lang] at hw
      subst hw
      rw [addParts]
      by_cases h : prev = endN
      · rw [if_pos h, h]
        exact GPath.refl endN
      · rw [if_neg h]
        refine GPath.eps (b := endN) ?_ (GPath.refl endN)
        rw [epsMem, Graph.connect_epsilon, Graph.update, getD_set,
          if_pos ⟨rfl, hprev⟩]
        exact List.mem_append_right _ (List.mem_singleton.mpr rfl)
    | cons p rest =>
      obtain ⟨atom, star⟩ := p
      intro hprev hw
      rw [RCat.lang] at hw
      obtain ⟨u, v, hu, hv, rfl⟩ := hw
      rw [addParts]
      cases star with
      | true =>
        rw [if_pos rfl]
        rw [RPart.lang] at hu
        have hpath1 : GPath (addAtom g prev prev atom).nodes prev u prev :=
          starL_path (fun u2 hu2 =>
            addAtom_complete atom g prev prev u2 hprev hu2) u hu
        have hrest : GPath (addParts (addAtom g prev prev atom) prev endN
            rest).nodes prev v endN :=
          addParts_complete rest _ prev endN v
            (lt_of_lt_of_le hprev (addAtom_gle atom g prev prev).1) hv
        exact gpath_append
          (gpath_mono (addParts_gle rest _ prev endN).2 hpath1) hrest
      | false =>
        rw [if_neg (by simp)]
        rw [RPart.lang] at hu
        have hlen1 : prev < (g.add_node).1.nodes.length := by
          simp [Graph.add_node]
          omega
        have hpath1 : GPath (addAtom (g.add_node).1 prev (g.add_node).2
            atom).nodes prev u (g.add_node).2 :=
          addAtom_complete atom _ prev _ u hlen1 hu
        have hlen2 : (g.add_node).2 <
            (addAtom (g.add_node).1 prev (g.add_node).2 atom).nodes.length := by
          refine lt_of_lt_of_le ?_ (addAtom_gle atom _ prev _).1
          simp [Graph.add_node]
        have hrest : GPath (addParts (addAtom (g.add_node).1 prev
            (g.add_node).2 atom) (g.add_node).2 endN rest).nodes
            (g.add_node).2 v endN :=
          addParts_complete rest _ _ endN v hlen2 hv
        exact gpath_append
          (gpath_mono (addParts_gle rest _ _ endN).2 hpath1) hrest
theorem addAlts_complete (al : RAlt) : ∀ g s e w,
    s < g.nodes.length → al.lang w →
    GPath (addAlts g s e al).nodes s w e
  | g, s, e, w => by
    cases al with
    | last c =>
      intro hs hw
      rw [RAlt.lang] at hw
      exact addParts_complete c g s e w hs hw
    | cons c rest =>
      intro hs hw
      rw [RAlt.lang] at hw
      rw [addAlts]
      rcases hw with hw | hw
      · exact gpath_mono (addAlts_gle rest _ s e).2
          (addParts_complete c g s e w hs hw)
      · exact addAlts_complete rest _ s e w
          (lt_of_lt_of_le hs (addParts_gle c g s e).1) hw
end

/-! ### C4: nullable patterns yield the zero-length pre-scan match -/

theorem gpath_nil_epsCl {ns : List Node} {q r : Nat} {w : List Nat}
    (h : GPath ns q w r) (hw : w = []) : EpsCl ns q r := by
  induction h with
  | refl q2 => exact Relation.ReflTransGen.refl
  | eps he _ ih => exact Relation.ReflTransGen.head he (ih hw)
  | step he _ ih => cases hw

theorem buildGraph_eq (ast : RAlt) :
    buildGraph ast = addAlts ⟨[Node.default0, ⟨true, [], []⟩]⟩ 0 1 ast := rfl

theorem buildGraph_len (ast : RAlt) : 2 ≤ (buildGraph ast).nodes.length := by
  rw [buildGraph_eq]
  have := (addAlts_gle ast ⟨[Node.default0, ⟨true, [], []⟩]⟩ 0 1).1
  simpa using this

theorem buildGraph_final1 (ast : RAlt) : finalAt (buildGraph ast).nodes 1 := by
  rw [buildGraph_eq]
  exact (addAlts_gle ast ⟨[Node.default0, ⟨true, [], []⟩]⟩ 0 1).2.2.2 1 rfl

theorem buildGraph_nullpath (ast : RAlt) (hnull : ast.lang []) :
    EpsCl (buildGraph ast).nodes 0 1 := by
  refine gpath_nil_epsCl ?_ rfl
  rw [buildGraph_eq]
  exact addAlts_complete ast ⟨[Node.default0, ⟨true, [], []⟩]⟩ 0 1 []
    (by simp) hnull

theorem foldl_min_some_some : ∀ (l : List (Option Nat)) (x : Nat),
    (l.foldl min_some (some x)).isSome := by
  intro l
  induction l with
  | nil => intro x; rfl
  | cons hd tl ih =>
    intro x
    cases hd with
    | none => exact ih x
    | some y => exact ih (min x y)

/-- The pre-scan dot product fires whenever the initial state is final. -/
theorem nfaDot_pre {n : Nat} {bs : List Bool} (hn : 0 < n)
    (hb : bs.getD 0 false = true) :
    (nfaDot ((List.replicate n none).set 0 (some 0)) bs).isSome := by
  cases n with
  | zero => omega
  | succ m =>
    cases bs with
    | nil => simp [List.getD] at hb
    | cons b bt =>
      have hb2 : b = true := by simpa [List.getD] using hb
      subst hb2
      rw [nfaDot]
      rw [show ((List.replicate (m + 1) none).set 0 (some 0)) =
        some 0 :: List.replicate m none by simp [List.replicate]]
      rw [show (some 0 :: List.replicate m (none : Option Nat)).zip (true :: bt) =
        (some 0, true) :: (List.replicate m none).zip bt from rfl]
      rw [List.map_cons]
      simp only [if_true]
      rw [List.foldl_cons]
      rw [show min_some none (some 0) = some 0 from rfl]
      exact foldl_min_some_some _ 0

theorem finals_getD {ns : List Node} (hn : 0 < ns.length) :
    (ns.map Node.is_final).getD 0 false = (ns.getD 0 Node.default0).is_final := by
  cases ns with
  | nil => simp at hn
  | cons a l => rfl

/-- C4: if the pattern's language contains the empty word, `find` returns
`Some (0, 0)` on every input, produced by the pre-scan check before any
symbol is consumed. -/
theorem c4_nullable_find_zero (ast : RAlt) (fuel : Nat) (rc : RegexC)
    (hc : compileAst fuel ast = some rc) (hnull : ast.lang [])
    (S : List Nat) : rc.find S = some (0, 0) := by
  rw [compileAst] at hc
  cases hg : (buildGraph ast).collapse_epsilons fuel with
  | none =>
    rw [hg] at hc
    cases hc
  | some g2 =>
    rw [hg] at hc
    injection hc with hc2
    obtain ⟨hlen2, hspec⟩ := collapse_char _ _ _ hg
    have hfin0 : finalAt g2.nodes 0 :=
      ((hspec 0).2.1).mpr ⟨1, buildGraph_nullpath ast hnull, buildGraph_final1 ast⟩
    have hn : 0 < g2.nodes.length := by
      have := buildGraph_len ast
      omega
    subst hc2
    rw [RegexC.find]
    rw [if_pos ?_]
    rw [Graph.compile]
    exact nfaDot_pre hn (by rw [finals_getD hn]; exact hfin0)

/-- Witness for C4: the pattern `a*` accepts the empty word, and `find`
returns `(0, 0)` on the input `[5, 6]`, which contains no `a` at all. -/
theorem c4_nullable_find_zero_witness :
    RegexC.find ⟨2, [(97, [[true, false], [false, false]])], [true, true]⟩
      [5, 6] = some (0, 0) :=
  c4_nullable_find_zero patAstar 50
    ⟨2, [(97, [[true, false], [false, false]])], [true, true]⟩ (by rfl)
    ⟨[], [], StarL.nil, rfl, rfl⟩ [5, 6]

/-- C5 (amended): on every run of `collapse_epsilons` that terminates — it
need not (see the counterexample) — the node count is unchanged, no epsilon
edges remain, a node is final iff a final node was epsilon-reachable from it
in the original graph, and a node carries a labeled edge `(t, c)` iff some
node epsilon-reachable from it did in the original graph. -/
theorem c5_collapse_preserves_closure (g g2 : Graph) (fuel : Nat)
    (h : g.collapse_epsilons fuel = some g2) :
    g2.nodes.length = g.nodes.length ∧
    ∀ a, (g2.nodes.getD a Node.default0).epsilon_edges = [] ∧
      (finalAt g2.nodes a ↔ ∃ b, EpsCl g.nodes a b ∧ finalAt g.nodes b) ∧
      (∀ t c, edgeMem g2.nodes a t c ↔
        ∃ b, EpsCl g.nodes a b ∧ edgeMem g.nodes b t c) := by
  obtain ⟨h1, h2⟩ := collapse_char g g2 fuel h
  exact ⟨h1, fun a => h2 a⟩

/-- Witness for the amended C5 on the translator graph of the pattern `a`:
after collapsing, node 2 is final because the final node 1 was
epsilon-reachable from it. -/
theorem c5_collapse_preserves_closure_witness :
    finalAt (Graph.mk
      [⟨false, [(2, 97)], []⟩, ⟨true, [], []⟩, ⟨true, [], []⟩]).nodes 2 ↔
      ∃ b, EpsCl (buildGraph patA).nodes 2 b ∧ finalAt (buildGraph patA).nodes b :=
  ((c5_collapse_preserves_closure (buildGraph patA)
    (Graph.mk [⟨false, [(2, 97)], []⟩, ⟨true, [], []⟩, ⟨true, [], []⟩]) 50
    (by rfl)).2 2).2.1

/-! ### C3: shortest match at the reported start -/

theorem edgeMem_lt {ns : List Node} {a t c : Nat} (h : edgeMem ns a t c) :
    a < ns.length := by
  by_contra hcon
  rw [edgeMem, List.getD_eq_default _ _ (by omega)] at h
  simp [Node.default0] at h

theorem epsMem_lt {ns : List Node} {a b : Nat} (h : epsMem ns a b) :
    a < ns.length := by
  by_contra hcon
  rw [epsMem, List.getD_eq_default _ _ (by omega)] at h
  simp [Node.default0] at h

/-- Transfer of an accepting epsilon-NFA path into the collapsed graph. -/
theorem gpath_to_lpath {orig ns2 : List Node}
    (hspec : ∀ a, NodeSpec orig a (ns2.getD a Node.default0)) :
    ∀ {q f : Nat} {w : List Nat}, GPath orig q w f → finalAt orig f →
    ∃ f2, LPath ns2 q w f2 ∧ finalAt ns2 f2 := by
  intro q f w hp hf
  induction hp with
  | refl q2 =>
    exact ⟨q2, LPath.refl q2,
      ((hspec q2).2.1).mpr ⟨q2, Relation.ReflTransGen.refl, hf⟩⟩
  | eps hqb _ ih =>
    obtain ⟨f2, hlp, hf2⟩ := ih hf
    cases hlp with
    | refl =>
      obtain ⟨d, hcl, hdf⟩ := ((hspec _).2.1).mp hf2
      exact ⟨_, LPath.refl _,
        ((hspec _).2.1).mpr ⟨d, Relation.ReflTransGen.head hqb hcl, hdf⟩⟩
    | step hedge htail =>
      obtain ⟨d, hcl, hde⟩ := ((hspec _).2.2 _ _).mp hedge
      exact ⟨f2, LPath.step (((hspec _).2.2 _ _).mpr
        ⟨d, Relation.ReflTransGen.head hqb hcl, hde⟩) htail, hf2⟩
  | step hedge _ ih =>
    obtain ⟨f2, hlp, hf2⟩ := ih hf
    exact ⟨f2, LPath.step (((hspec _).2.2 _ _).mpr
      ⟨_, Relation.ReflTransGen.refl, hedge⟩) hlp, hf2⟩

theorem edgeWf_connect {g : Graph} (hwf : EdgeWf g) (x y tok : Nat)
    (hy : y < g.nodes.length) : EdgeWf (g.connect x y tok) := by
  intro a t c hm
  rw [edgeMem, Graph.connect, Graph.update, getD_set] at hm
  have hlen : (g.connect x y tok).nodes.length = g.nodes.length := by
    simp [Graph.connect, Graph.update]
  rw [hlen]
  by_cases hax : a = x ∧ x < g.nodes.length
  · rw [if_pos hax] at hm
    rcases List.mem_append.mp hm with hm2 | hm2
    · exact hwf x t c hm2
    · have h2 := List.mem_singleton.mp hm2
      injection h2 with h3 h4
      rw [h3]
      exact hy
  · rw [if_neg hax] at hm
    exact hwf a t c hm

theorem edgeWf_connect_epsilon {g : Graph} (hwf : EdgeWf g) (x y : Nat) :
    EdgeWf (g.connect_epsilon x y) := by
  intro a t c hm
  rw [edgeMem, Graph.connect_epsilon, Graph.update, getD_set] at hm
  have hlen : (g.connect_epsilon x y).nodes.length = g.nodes.length := by
    simp [Graph.connect_epsilon, Graph.update]
  rw [hlen]
  by_cases hax : a = x ∧ x < g.nodes.length
  · rw [if_pos hax] at hm
    exact hwf x t c hm
  · rw [if_neg hax] at hm
    exact hwf a t c hm

theorem edgeWf_set_final {g : Graph} (hwf : EdgeWf g) (x : Nat) :
    EdgeWf (g.set_final x) := by
  intro a t c hm
  rw [edgeMem, Graph.set_final, Graph.update, getD_set] at hm
  have hlen : (g.set_final x).nodes.length = g.nodes.length := by
    simp [Graph.set_final, Graph.update]
  rw [hlen]
  by_cases hax : a = x ∧ x < g.nodes.length
  · rw [if_pos hax] at hm
    exact hwf x t c hm
  · rw [if_neg hax] at hm
    exact hwf a t c hm

theorem edgeWf_add_node {g : Graph} (hwf : EdgeWf g) :
    EdgeWf (g.add_node).1 := by
  intro a t c hm
  rw [edgeMem, Graph.add_node, getD_append_node] at hm
  have hlen : (g.add_node).1.nodes.length = g.nodes.length + 1 := by
    simp [Graph.add_node]
  rw [hlen]
  by_cases h1 : a < g.nodes.length
  · rw [if_pos h1] at hm
    have := hwf a t c hm
    omega
  · rw [if_neg h1] at hm
    by_cases h2 : a = g.nodes.length
    · rw [if_pos h2] at hm
      simp [Node.default0] at hm
    · rw [if_neg h2] at hm
      simp [Node.default0] at hm

mutual
theorem addAtom_wf (atom : RAtom) : ∀ g prev nxt, EdgeWf g →
    prev < g.nodes.length → nxt < g.nodes.length →
    EdgeWf (addAtom g prev nxt atom)
  | g, prev, nxt => by
    cases atom with
    | ch c =>
      intro hwf _ hn
      exact edgeWf_connect hwf prev nxt c hn
    | group a =>
      intro hwf hp _
      exact addAlts_wf a g prev nxt hwf hp
theorem addParts_wf (c : RCat) : ∀ g prev endN, EdgeWf g →
    prev < g.nodes.length → EdgeWf (addParts g prev endN c)
  | g, prev, endN => by
    cases c with
    | nil =>
      intro hwf _
      rw [addParts]
      by_cases h : prev = endN
      · rw [if_pos h]
        exact hwf
      · rw [if_neg h]
        exact edgeWf_connect_epsilon hwf prev endN
    | cons p rest =>
      obtain ⟨atom, star⟩ := p
      intro hwf hp
      rw [addParts]
      cases star with
      | true =>
        rw [if_pos rfl]
        exact addParts_wf rest _ prev endN
          (addAtom_wf atom g prev prev hwf hp hp)
          (lt_of_lt_of_le hp (addAtom_gle atom g prev prev).1)
      | false =>
        rw [if_neg (by simp)]
        have h1 : prev < (g.add_node).1.nodes.length := by
          simp [Graph.add_node]
          omega
        have h2 : (g.add_node).2 < (g.add_node).1.nodes.length := by
          simp [Graph.add_node]
        exact addParts_wf rest _ (g.add_node).2 endN
          (addAtom_wf atom _ prev (g.add_node).2 (edgeWf_add_node hwf) h1 h2)
          (lt_of_lt_of_le h2 (addAtom_gle atom _ prev (g.add_node).2).1)
theorem addAlts_wf (al : RAlt) : ∀ g s e, EdgeWf g →
    s < g.nodes.length → EdgeWf (addAlts g s e al)
  | g, s, e => by
    cases al with
    | last c =>
      intro hwf hs
      exact addParts_wf c g s e hwf hs
    | cons c rest =>
      intro hwf hs
      rw [addAlts]
      exact addAlts_wf rest _ s e (addParts_wf c g s e hwf hs)
        (lt_of_lt_of_le hs (addParts_gle c g s e).1)
end

theorem buildGraph_wf (ast : RAlt) : EdgeWf (buildGraph ast) := by
  rw [buildGraph_eq]
  refine addAlts_wf ast ⟨[Node.default0, ⟨true, [], []⟩]⟩ 0 1 ?_ (by simp)
  intro a t c hm
  rcases a with _ | _ | a2
  · simp [edgeMem, Node.default0, List.getD] at hm
  · simp [edgeMem, List.getD] at hm
  · rw [edgeMem, List.getD_eq_default _ _ (by simp)] at hm
    simp [Node.default0] at hm

/-- The collapsed graph inherits edge well-formedness from the original. -/
theorem collapsed_wf {g g2 : Graph} {fuel : Nat}
    (h : g.collapse_epsilons fuel = some g2) (hwf : EdgeWf g) : EdgeWf g2 := by
  obtain ⟨hlen, hspec⟩ := collapse_char g g2 fuel h
  intro a t c hm
  obtain ⟨b, _, hbe⟩ := ((hspec a).2.2 t c).mp hm
  rw [hlen]
  exact hwf b t c hbe

/-! Compile-level lemmas: symbol lookup and matrix entries. -/

theorem lookup_map_self {l : List Nat} {c : Nat}
    (f : Nat → List (List Bool)) (hc : c ∈ l) :
    List.lookup c (l.map fun x => (x, f x)) = some (f c) := by
  induction l with
  | nil => cases hc
  | cons x xs ih =>
    rw [List.map_cons, List.lookup_cons]
    by_cases hcx : c = x
    · subst hcx
      simp
    · have hbeq : (c == x) = false := beq_eq_false_iff_ne.mpr hcx
      rw [hbeq]
      rcases List.mem_cons.mp hc with h1 | h1
      · exact absurd h1 hcx
      · exact ih h1

theorem symbols_mem {g : Graph} {q t c : Nat} (he : edgeMem g.nodes q t c) :
    c ∈ g.symbols := by
  rw [Graph.symbols, List.mem_dedup]
  have hq : q < g.nodes.length := edgeMem_lt he
  have hnd : g.nodes.getD q Node.default0 ∈ g.nodes := by
    rw [List.getD_eq_getElem?_getD]
    cases hget : g.nodes[q]? with
    | none =>
      rw [List.getElem?_eq_none_iff] at hget
      omega
    | some nd =>
      exact List.getElem?_mem hget
  refine List.mem_flatMap.mpr ⟨g.nodes.getD q Node.default0, hnd, ?_⟩
  exact List.mem_map.mpr ⟨(t, c), he, rfl⟩

theorem lookupTok_of_edge {g : Graph} {q t c : Nat}
    (he : edgeMem g.nodes q t c) :
    g.compile.lookupTok c = some (g.matrixFor c) := by
  rw [RegexC.lookupTok, Graph.compile]
  exact lookup_map_self _ (symbols_mem he)

theorem matrixFor_entry {g : Graph} {q t c : Nat}
    (he : edgeMem g.nodes q t c) (ht : t < g.nodes.length) :
    matGet (g.matrixFor c) t q = true := by
  have hq : q < g.nodes.length := edgeMem_lt he
  have houter : (g.matrixFor c).getD t [] =
      List.map (fun s => (g.nodes.getD s Node.default0).edges.contains (t, c))
        (List.range g.nodes.length) := by
    rw [Graph.matrixFor, List.getD_eq_getElem?_getD, List.getElem?_map,
      List.getElem?_range ht]
    rfl
  have hinner : (List.map (fun s =>
      (g.nodes.getD s Node.default0).edges.contains (t, c))
        (List.range g.nodes.length)).getD q false =
      (g.nodes.getD q Node.default0).edges.contains (t, c) := by
    rw [List.getD_eq_getElem?_getD, List.getElem?_map, List.getElem?_range hq]
    rfl
  rw [matGet, houter, hinner]
  exact List.elem_eq_true_of_mem he

/-! Activation lemmas: `isSome` propagation through the `find` step. -/

theorem min_some_isSome_left {a : Option Nat} (ha : a.isSome) (b : Option Nat) :
    (min_some a b).isSome := by
  cases a with
  | none => cases ha
  | some x => cases b <;> rfl

theorem min_some_isSome_right (a : Option Nat) {b : Option Nat}
    (hb : b.isSome) : (min_some a b).isSome := by
  cases b with
  | none => cases hb
  | some x => cases a <;> rfl

theorem foldl_gate_active (m : List (List Bool)) (acc : List (Option Nat))
    (i : Nat) :
    ∀ (l : List Nat) (a0 : Option Nat),
      (a0.isSome ∨ ∃ k ∈ l, matGet m i k = true ∧ (acc.getD k none).isSome) →
      (l.foldl (fun value k =>
        if matGet m i k then min_some value (acc.getD k none) else value)
        a0).isSome := by
  intro l
  induction l with
  | nil =>
    rintro a0 (h | ⟨k, hk, _⟩)
    · exact h
    · cases hk
  | cons hd tl ih =>
    rintro a0 (h | ⟨k, hk, hg, hs⟩)
    · rw [List.foldl_cons]
      refine ih _ (Or.inl ?_)
      by_cases hgd : matGet m i hd = true
      · rw [if_pos hgd]
        exact min_some_isSome_left h _
      · rw [if_neg hgd]
        exact h
    · rcases List.mem_cons.mp hk with rfl | hk2
      · rw [List.foldl_cons, if_pos hg]
        exact ih _ (Or.inl (min_some_isSome_right _ hs))
      · rw [List.foldl_cons]
        exact ih _ (Or.inr ⟨k, hk2, hg, hs⟩)

theorem nfaApply_len (n : Nat) (m : List (List Bool)) (v : List (Option Nat)) :
    (nfaApply n m v).length = n := by
  simp [nfaApply]

theorem nfaApply_active {n : Nat} {m : List (List Bool)}
    {acc : List (Option Nat)} {q t : Nat} (ht : t < n)
    (hentry : matGet m t q = true) (hq : q < n)
    (hacc : (acc.getD q none).isSome) :
    ((nfaApply n m acc).getD t none).isSome := by
  have houter : (nfaApply n m acc).getD t none =
      (List.range n).foldl (fun value k =>
        if matGet m t k then min_some value (acc.getD k none) else value)
        none := by
    rw [nfaApply, List.getD_eq_getElem?_getD, List.getElem?_map,
      List.getElem?_range ht]
    rfl
  rw [houter]
  exact foldl_gate_active m acc t (List.range n) none
    (Or.inr ⟨q, List.mem_range.mpr hq, hentry, hacc⟩)

theorem set0_active {acc : List (Option Nat)} {q v : Nat}
    (h : (acc.getD q none).isSome) :
    ((acc.set 0 (some v)).getD q none).isSome := by
  by_cases hq0 : q = 0
  · subst hq0
    by_cases hl : 0 < acc.length
    · rw [List.getD_eq_getElem?_getD, List.getElem?_set_self hl]
      rfl
    · rw [List.getD_eq_default _ _ (by omega)] at h
      cases h
  · rw [List.getD_eq_getElem?_getD,
      List.getElem?_set_ne (show (0 : Nat) ≠ q from fun hh => hq0 hh.symm),
      ← List.getD_eq_getElem?_getD]
    exact h

theorem set0_getD_some {acc : List (Option Nat)} {v : Nat}
    (h : 0 < acc.length) : (acc.set 0 (some v)).getD 0 none = some v := by
  rw [List.getD_eq_getElem?_getD, List.getElem?_set_self h]
  rfl

theorem foldl_min_some_any : ∀ (l : List (Option Nat)) (a0 : Option Nat),
    ((∃ v ∈ l, v.isSome) ∨ a0.isSome) → (l.foldl min_some a0).isSome := by
  intro l
  induction l with
  | nil =>
    rintro a0 (⟨v, hv, _⟩ | h)
    · cases hv
    · exact h
  | cons hd tl ih =>
    rintro a0 (⟨v, hv, hs⟩ | h)
    · rcases List.mem_cons.mp hv with rfl | hv2
      · exact ih _ (Or.inr (min_some_isSome_right _ hs))
      · exact ih _ (Or.inl ⟨v, hv2, hs⟩)
    · exact ih _ (Or.inr (min_some_isSome_left h _))

theorem nfaDot_active {a : List (Option Nat)} {b : List Bool} {f : Nat}
    (hfa : f < a.length) (hfb : f < b.length)
    (ha : (a.getD f none).isSome) (hb : b.getD f false = true) :
    (nfaDot a b).isSome := by
  rw [nfaDot]
  refine foldl_min_some_any _ _ (Or.inl ⟨a.getD f none, ?_, ha⟩)
  have hza : a[f]? = some (a.getD f none) := by
    rw [List.getElem?_eq_getElem hfa, List.getD_eq_getElem?_getD,
      List.getElem?_eq_getElem hfa]
    rfl
  have hbv : b[f] = true := by
    rw [List.getD_eq_getElem?_getD, List.getElem?_eq_getElem hfb] at hb
    exact hb
  have hzb : b[f]? = some true := by
    rw [List.getElem?_eq_getElem hfb, hbv]
  have hzip : (a.zip b)[f]? = some (a.getD f none, true) :=
    List.getElem?_zip_eq_some.mpr ⟨hza, hzb⟩
  have hmem : (a.getD f none, true) ∈ a.zip b := List.getElem?_mem hzip
  refine List.mem_map.mpr ⟨(a.getD f none, true), hmem, ?_⟩
  simp

theorem stepAcc_len (r : RegexC) (acc : List (Option Nat)) (i t : Nat) :
    (stepAcc r acc i t).length = r.n := by
  rw [stepAcc]
  cases r.lookupTok t with
  | none => simp
  | some m => simp [nfaApply]

theorem runAcc_len (r : RegexC) :
    ∀ (pre : List Nat) (acc : List (Option Nat)) (i : Nat),
      acc.length = r.n → (runAcc r acc i pre).length = r.n := by
  intro pre
  induction pre with
  | nil => intro acc i h; exact h
  | cons p ps ih => intro acc i h; exact ih _ (i + 1) (stepAcc_len r acc i p)

theorem finals_getD_at (ns : List Node) (t : Nat) (ht : t < ns.length) :
    (ns.map Node.is_final).getD t false = (ns.getD t Node.default0).is_final := by
  rw [List.getD_eq_getElem?_getD, List.getElem?_map, List.getElem?_eq_getElem ht,
    List.getD_eq_getElem?_getD, List.getElem?_eq_getElem ht]
  rfl

/-- An accepting labeled path of length `j + 1` in the collapsed graph,
starting at an active state, makes the `find` loop fire at round `j`. -/
theorem seg_fires (g2 : Graph) (hwf : EdgeWf g2) :
    ∀ (w : List Nat) (q f : Nat), LPath g2.nodes q w f → finalAt g2.nodes f →
      ∀ (acc : List (Option Nat)) (i : Nat) (rest : List Nat) (j : Nat),
      j + 1 = w.length →
      ((acc.set 0 (some i)).getD q none).isSome →
      firesAt g2.compile acc i (w ++ rest) j := by
  intro w
  induction w with
  | nil => intro q f _ _ acc i rest j hj _; cases hj
  | cons c w2 ih =>
    intro q f hp hf acc i rest j hj hact
    cases hp with
    | step hedge htail =>
      rename_i t
      have htlt : t < g2.nodes.length := hwf _ _ _ hedge
      have hqlt : q < g2.nodes.length := edgeMem_lt hedge
      have hlk : g2.compile.lookupTok c = some (g2.matrixFor c) :=
        lookupTok_of_edge hedge
      have hentry : matGet (g2.matrixFor c) t q = true :=
        matrixFor_entry hedge htlt
      have hact2 : ((nfaApply g2.compile.n (g2.matrixFor c)
          (acc.set 0 (some i))).getD t none).isSome :=
        nfaApply_active htlt hentry hqlt hact
      have hstep : stepAcc g2.compile acc i c =
          nfaApply g2.compile.n (g2.matrixFor c) (acc.set 0 (some i)) := by
        rw [stepAcc, hlk]
      cases w2 with
      | nil =>
        have hj0 : j = 0 := by simpa using hj
        subst hj0
        cases htail
        rw [List.cons_append, List.nil_append]
        simp only [firesAt]
        rw [hlk]
        dsimp only
        have hfn : g2.compile.final_nodes = g2.nodes.map Node.is_final := by
          rfl
        refine nfaDot_active ?_ ?_ hact2 ?_
        · rw [nfaApply_len]; exact htlt
        · rw [hfn, List.length_map]; exact htlt
        · rw [hfn, finals_getD_at _ _ htlt]; exact hf
      | cons c2 w3 =>
        cases j with
        | zero => simp only [List.length_cons] at hj; omega
        | succ j2 =>
          have hj2 : j2 + 1 = (c2 :: w3).length := by
            simp only [List.length_cons] at hj ⊢; omega
          have hact3 : (((stepAcc g2.compile acc i c).set 0
              (some (i + 1))).getD t none).isSome := by
            rw [hstep]; exact set0_active hact2
          have hres := ih t f htail hf (stepAcc g2.compile acc i c) (i + 1)
            rest j2 hj2 hact3
          rw [List.cons_append]
          simp only [firesAt]
          exact hres

/-- The loop of `find` returns no later than any firing round: if it
returns `(st, l)` and round `j` fires, then `st + l ≤ i + j + 1` (the
returned match ends no later than the end of round `j`). -/
theorem findGo_first (r : RegexC) :
    ∀ (s : List Nat) (acc : List (Option Nat)) (i st l : Nat),
      r.findGo acc i s = some (st, l) → BndV acc i →
      ∀ j, firesAt r acc i s j → st + l ≤ i + j + 1 := by
  intro s
  induction s with
  | nil => intro acc i st l h; cases h
  | cons t rest ih =>
    intro acc i st l h hB j hfire
    rw [RegexC.findGo] at h
    cases hlk : r.lookupTok t with
    | none =>
      rw [hlk] at h
      cases j with
      | zero =>
        simp only [firesAt] at hfire
        rw [hlk] at hfire
        exact absurd hfire (by simp)
      | succ j2 =>
        simp only [firesAt] at hfire
        have hstep : stepAcc r acc i t = List.replicate r.n none := by
          rw [stepAcc, hlk]
        rw [hstep] at hfire
        have := ih _ (i + 1) st l h (bndV_replicate _ _) j2 hfire
        omega
    | some m =>
      rw [hlk] at h
      dsimp only at h
      have hstep : stepAcc r acc i t = nfaApply r.n m (acc.set 0 (some i)) := by
        rw [stepAcc, hlk]
      have hB2 : BndV (nfaApply r.n m (acc.set 0 (some i))) i :=
        bndV_nfaApply (bndV_set0 hB (le_refl i)) r.n m
      cases hdot : nfaDot (nfaApply r.n m (acc.set 0 (some i))) r.final_nodes with
      | some s0 =>
        rw [hdot] at h
        injection h with h2
        have hs0 : s0 ≤ i := hB2 _ (nfaDot_src hdot) s0 rfl
        have hst : st = s0 ∧ l = i - s0 + 1 := by
          have := Prod.mk.injEq s0 (i - s0 + 1) st l ▸ h2
          exact ⟨this.1.symm, this.2.symm⟩
        obtain ⟨h3, h4⟩ := hst
        omega
      | none =>
        rw [hdot] at h
        cases j with
        | zero =>
          simp only [firesAt] at hfire
          rw [hlk] at hfire
          dsimp only at hfire
          rw [hdot] at hfire
          cases hfire
        | succ j2 =>
          simp only [firesAt] at hfire
          rw [hstep] at hfire
          have := ih _ (i + 1) st l h (bndV_mono hB2 (by omega)) j2 hfire
          omega

/-- Shifting a fire over a consumed prefix: a fire of the loop state after
`pre` is a fire of the original state at the shifted round. -/
theorem firesAt_shift (r : RegexC) :
    ∀ (pre : List Nat) (acc : List (Option Nat)) (i : Nat) (suf : List Nat)
      (j : Nat),
      firesAt r (runAcc r acc i pre) (i + pre.length) suf j →
      firesAt r acc i (pre ++ suf) (pre.length + j) := by
  intro pre
  induction pre with
  | nil => intro acc i suf j h; simpa using h
  | cons p ps ih =>
    intro acc i suf j h
    rw [List.cons_append]
    have hlen : (p :: ps).length + j = (ps.length + j) + 1 := by
      simp only [List.length_cons]; omega
    rw [hlen]
    simp only [firesAt]
    refine ih (stepAcc r acc i p) (i + 1) suf j ?_
    have harith : i + 1 + ps.length = i + (p :: ps).length := by
      simp only [List.length_cons]; omega
    rw [harith]
    exact h

/-- C3: shortest match at the reported start — if `find` returns
`some (s, l)`, then no strictly shorter prefix of the input's suffix at `s`
is in the pattern's language.  Proof idea: `find` returns at the first
round where some final state is reachable; a shorter match starting at `s`
would, by completeness of the compiled automaton for the reference
language, fire at an earlier round, bounding `l` below `l2 + 1`. -/
theorem c3_find_shortest_at_start (ast : RAlt) (fuel : Nat) (rc : RegexC)
    (hc : compileAst fuel ast = some rc) (S : List Nat) (s l : Nat)
    (hf : rc.find S = some (s, l)) (l2 : Nat) (hl2 : l2 < l) :
    ¬ ast.lang ((S.drop s).take l2) := by
  intro hw
  rw [compileAst] at hc
  cases hg : (buildGraph ast).collapse_epsilons fuel with
  | none => rw [hg] at hc; cases hc
  | some g2 =>
    rw [hg] at hc
    injection hc with hc2
    subst hc2
    obtain ⟨hlen2, hspec⟩ := collapse_char _ _ _ hg
    have hn2 : 0 < g2.nodes.length := by
      have := buildGraph_len ast
      omega
    have hnn : g2.compile.n = g2.nodes.length := rfl
    rw [RegexC.find] at hf
    by_cases hpre : (nfaDot ((List.replicate g2.compile.n none).set 0 (some 0))
        g2.compile.final_nodes).isSome
    · rw [if_pos hpre] at hf
      injection hf with hf2
      have hl0 : l = 0 := (Prod.mk.injEq 0 0 s l ▸ hf2).2.symm
      omega
    · rw [if_neg hpre] at hf
      have hB0 : BndV ((List.replicate g2.compile.n none).set 0 (some 0)) 0 :=
        bndV_set0 (bndV_replicate _ _) (le_refl 0)
      obtain ⟨jb, hjb, hstb, hlb⟩ := findGo_bounds _ S _ 0 s l hB0 hf
      have hsl : s + l ≤ S.length := by omega
      cases l2 with
      | zero =>
        rw [List.take_zero] at hw
        have hfin0 : finalAt g2.nodes 0 :=
          ((hspec 0).2.1).mpr
            ⟨1, buildGraph_nullpath ast hw, buildGraph_final1 ast⟩
        have hfb : g2.compile.final_nodes.getD 0 false = true := by
          have hfn : g2.compile.final_nodes = g2.nodes.map Node.is_final := rfl
          rw [hfn, finals_getD hn2]
          exact hfin0
        exact hpre (nfaDot_pre (by rw [hnn]; exact hn2) hfb)
      | succ l2x =>
        have hwlen : ((S.drop s).take (l2x + 1)).length = l2x + 1 := by
          rw [List.length_take, List.length_drop]
          omega
        have hgp : GPath (buildGraph ast).nodes 0
            ((S.drop s).take (l2x + 1)) 1 := by
          rw [buildGraph_eq]
          exact addAlts_complete ast ⟨[Node.default0, ⟨true, [], []⟩]⟩ 0 1 _
            (by simp) hw
        obtain ⟨f2, hlp, hfin2⟩ := gpath_to_lpath hspec hgp (buildGraph_final1 ast)
        have hwf2 : EdgeWf g2 := collapsed_wf hg (buildGraph_wf ast)
        have hacclen : (runAcc g2.compile
            ((List.replicate g2.compile.n none).set 0 (some 0)) 0
            (S.take s)).length = g2.compile.n :=
          runAcc_len _ _ _ _ (by simp)
        have hact : (((runAcc g2.compile
            ((List.replicate g2.compile.n none).set 0 (some 0)) 0
            (S.take s)).set 0 (some s)).getD 0 none).isSome := by
          rw [set0_getD_some]
          · rfl
          · rw [hacclen, hnn]; exact hn2
        have hfire1 : firesAt g2.compile (runAcc g2.compile
            ((List.replicate g2.compile.n none).set 0 (some 0)) 0 (S.take s)) s
            (((S.drop s).take (l2x + 1)) ++ ((S.drop s).drop (l2x + 1)))
            l2x :=
          seg_fires g2 hwf2 _ 0 f2 hlp hfin2 _ s _ l2x hwlen.symm hact
        rw [List.take_append_drop] at hfire1
        have htake : (S.take s).length = s := by
          rw [List.length_take]; omega
        have hfire2 : firesAt g2.compile
            ((List.replicate g2.compile.n none).set 0 (some 0)) 0
            (S.take s ++ S.drop s) ((S.take s).length + l2x) := by
          refine firesAt_shift _ _ _ _ _ _ ?_
          rw [Nat.zero_add, htake]
          exact hfire1
        rw [List.take_append_drop, htake] at hfire2
        have hfirst := findGo_first _ S _ 0 s l hf hB0 (s + l2x) hfire2
        omega

/-- Witness for C3 on the compiled pattern `a` and the input `ba`:
`find` returns `(1, 1)`, and the length-0 candidate at the same start is
not in the language. -/
theorem c3_find_shortest_witness :
    ¬ patA.lang ((([98, 97] : List Nat).drop 1).take 0) :=
  c3_find_shortest_at_start patA 50
    ⟨3, [(97, [[false, false, false], [false, false, false],
      [true, false, false]])], [false, true, true]⟩
    (by rfl) [98, 97] 1 1 (by rfl) 0 (by omega)
